import Mathlib

/-!
Verification development for the LinkHints renderer (RendererProgram).

This file gives a shallow embedding of the renderer content script:
the hint-node construction loop of RendererProgram.render, the
viewport-correction pass moveInsideViewport, the incremental update
engine updateHints, the overlap grouping getStacks / getStackFor,
the stack rotation rotateHints, and the teardown operations unrender,
unrenderDelayed and unrenderToTitle, together with the timer table that
backs setTimeout / clearTimeout.

Modelling conventions:
* Exact pixel geometry is modelled with rational numbers; Math.round of
  JavaScript (halves toward positive infinity) is jsRound, Math.ceil is
  the integer ceiling.
* DOM elements are identified by natural-number ids standing for object
  identity; the rectangle cache keyed by elements becomes an association
  list keyed by those ids.
* A hint's client rectangle is derived from its inline styles by
  hintRect: hints are absolutely positioned with top plus exactly one of
  left / right, carry optional margin-top / margin-right overrides, and
  the CSS transform translateY(-50%) centres them vertically.  For a
  right-positioned node a margin-right of m shifts the box left by m;
  for a left-positioned node margin-right does not move the box (left
  and width determine its horizontal placement).
* setTimeout / clearTimeout are modelled by an explicit table of
  outstanding timers plus a fresh-id counter, so that "at most one
  outstanding timer" is a real statement rather than a typing artifact.
* The paint/message steps of render (waitForPaint, sendMessage) have no
  effect on renderer state and are elided; the measurement results of
  the probe elements and of getViewport enter as parameters.
-/

namespace Renderer

/-- Browser maximum z-index, constant MAX_Z_INDEX of the source. -/
def MAX_Z_INDEX : ℤ := 2147483647

/-- Cap on eagerly corrected edge hints, MAX_IMMEDIATE_HINT_MOVEMENTS. -/
def MAX_IMMEDIATE_HINT_MOVEMENTS : ℕ := 50

/-- JavaScript Math.round on exact rational inputs: halves round up. -/
def jsRound (x : ℚ) : ℤ := ⌊x + 1/2⌋

/-- A client rectangle as returned by getBoundingClientRect. -/
structure Rect where
  left : ℚ
  top : ℚ
  right : ℚ
  bottom : ℚ
deriving DecidableEq

/-- The visual viewport, result of getViewport. -/
structure Viewport where
  width : ℚ
  height : ℚ
deriving DecidableEq

/-- Function overlaps of the source: inclusive-edge intersection. -/
def overlaps (rectA rectB : Rect) : Bool :=
  decide (rectA.right ≥ rectB.left) && decide (rectA.left ≤ rectB.right) &&
  decide (rectA.bottom ≥ rectB.top) && decide (rectA.top ≤ rectB.bottom)

/-- A hint element as seen by the overlap resolver: its identity and the
rectangle a live getBoundingClientRect would report. -/
structure HintElem where
  id : ℕ
  liveRect : Rect
deriving DecidableEq

/-- The rectangle cache, Map from element (identity) to ClientRect. -/
abbrev RectCache := List (ℕ × Rect)

/-- Expression rects.get(element) || element.getBoundingClientRect() of
getStackFor: the cached rectangle when present, else a live measurement. -/
def rectFor (rects : RectCache) (e : HintElem) : Rect :=
  match List.lookup e.id rects with
  | some r => r
  | none => e.liveRect

/-- Fuel bound for the scan loop of getStackFor; see stackGo. -/
def stackFuel (n : ℕ) : ℕ := (n + 1) * (n + 1)

/-- The body of getStackFor: scan `elements` from position i; an element
overlapping `element` is spliced out, its own stack collected recursively,
and the scan continues at the same position on the remaining list.
Returns the collected overlapping elements (excluding `element` itself)
and the leftover list.  The structural fuel argument bounds the loop;
stackFuel of the list length always suffices (each recursive call either
shortens the list or advances the scan position). -/
def stackGo (rects : RectCache) :
    ℕ → HintElem → List HintElem → ℕ → List HintElem × List HintElem
  | 0, _, elements, _ => ([], elements)
  | fuel+1, element, elements, i =>
    if h : i < elements.length then
      let nextElement := elements.get ⟨i, h⟩
      if overlaps (rectFor rects nextElement) (rectFor rects element) then
        let p := stackGo rects fuel nextElement (elements.eraseIdx i) 0
        let q := stackGo rects fuel element p.2 i
        (nextElement :: p.1 ++ q.1, q.2)
      else
        stackGo rects fuel element elements (i+1)
    else ([], elements)

/-- Function getStackFor of the source: `element` plus every element of
`elements` transitively overlapping it; the overlapping ones are removed
from the returned leftover list. -/
def getStackFor (rects : RectCache) (element : HintElem)
    (elements : List HintElem) : List HintElem × List HintElem :=
  let p := stackGo rects (stackFuel elements.length) element elements 0
  (element :: p.1, p.2)

/-- Loop of getStacks: repeatedly pop the last element and collect its
stack.  The fuel is the initial list length; every iteration removes at
least the popped element, so it suffices. -/
def getStacksAux (rects : RectCache) :
    ℕ → List HintElem → List (List HintElem)
  | 0, _ => []
  | _+1, [] => []
  | fuel+1, e :: es =>
    let element := (e :: es).getLast (List.cons_ne_nil e es)
    let rest := (e :: es).dropLast
    let p := getStackFor rects element rest
    p.1 :: getStacksAux rects fuel p.2

/-- Function getStacks of the source: partition the hint elements into
overlap stacks. -/
def getStacks (rects : RectCache) (originalElements : List HintElem) :
    List (List HintElem) :=
  getStacksAux rects originalElements.length originalElements

/-- Horizontal alignment requested by the element measurements. -/
inductive Alignment where
  | left
  | right
deriving DecidableEq

/-- A rendered hint node: identity, label, the inline styles set by the
renderer (position, z-index, margins) and the visual classes and text
content managed by updateHints.  The width and height fields are the
laid-out content-box dimensions of the node. -/
structure Hint where
  id : ℕ
  label : String
  posLeft : Option ℤ
  posRight : Option ℤ
  posTop : ℤ
  z : ℤ
  hiddenClass : Bool
  highlightedClass : Bool
  matchedChars : String
  restChars : String
  marginRight : Option ℤ
  marginTop : Option ℤ
  width : ℚ
  height : ℚ
deriving DecidableEq

/-- The client rectangle of a hint node, derived from its inline styles:
absolute positioning inside the container (sized to the viewport), top
plus exactly one of left / right, transform translateY(-50%), optional
margin overrides.  A right-positioned box sits margin-right pixels left
of (container width - right); a left-positioned box is pinned by left and
its width, unaffected by margin-right.  margin-top always shifts the box
down. -/
def hintRect (viewport : Viewport) (h : Hint) : Rect :=
  let horizontal : ℚ × ℚ :=
    match h.posLeft, h.posRight with
    | some l, _ => ((l : ℚ), (l : ℚ) + h.width)
    | none, some r =>
      let right := viewport.width - (r : ℚ) - ((h.marginRight.getD 0 : ℤ) : ℚ)
      (right - h.width, right)
    | none, none => (0, h.width)
  let centre : ℚ := (h.posTop : ℚ) + ((h.marginTop.getD 0 : ℤ) : ℚ)
  { left := horizontal.1, right := horizontal.2,
    top := centre - h.height / 2, bottom := centre + h.height / 2 }

/-- View of a hint node as seen by the overlap resolver. -/
def Hint.toElem (viewport : Viewport) (h : Hint) : HintElem :=
  ⟨h.id, hintRect viewport h⟩

/-- The hintMeasurements record of an ElementWithHint. -/
structure HintMeasurements where
  x : ℚ
  y : ℚ
  align : Alignment
  maxX : ℚ
deriving DecidableEq

/-- An input target element with its assigned hint label. -/
structure ElementWithHint where
  hintMeasurements : HintMeasurements
  hint : String
deriving DecidableEq

/-- Width model of render: two probe rectangles give the per-character
slope widthK and intercept widthM; a label of n characters is modelled
as ceil(widthM + widthK * n). -/
def hintWidthOf (rect1 rect2 : Rect) (label : String) : ℤ :=
  let widthK : ℚ := (rect2.right - rect2.left) - (rect1.right - rect1.left)
  let widthM : ℚ := (rect1.right - rect1.left) - widthK
  ⌈widthM + widthK * (label.length : ℚ)⌉

/-- Body of the render loop for one element: build the hint node, choose
horizontal alignment (left alignment is honoured only when the modelled
right edge x + width stays strictly below the element's maxX), position
with exactly one of left / right plus top, and assign the strictly
decreasing stacking index MAX_Z_INDEX - index. -/
def mkHintNode (viewport : Viewport) (rect1 rect2 : Rect) (hintHeight : ℚ)
    (index : ℕ) (e : ElementWithHint) : Hint :=
  let m := e.hintMeasurements
  let width : ℤ := hintWidthOf rect1 rect2 e.hint
  let alignLeft := m.align = Alignment.left ∧ m.x + (width : ℚ) < m.maxX
  { id := index, label := e.hint,
    posLeft := if alignLeft then some (jsRound m.x) else none,
    posRight := if alignLeft then none else some (jsRound (viewport.width - m.x)),
    posTop := jsRound m.y,
    z := MAX_Z_INDEX - index,
    hiddenClass := false, highlightedClass := false,
    matchedChars := "", restChars := e.hint,
    marginRight := none, marginTop := none,
    width := (width : ℚ), height := hintHeight }

/-- Edge classification of render: a hint likely to clip the viewport
horizontally (using the width model) or vertically (within the probe
half height of the top or bottom edge). -/
def isEdgeElement (viewport : Viewport) (halfHeight : ℚ)
    (e : ElementWithHint) (width : ℤ) : Bool :=
  let m := e.hintMeasurements
  let outsideHorizontally :=
    if m.align = Alignment.left then decide (viewport.width - m.x ≤ (width : ℚ))
    else decide (m.x ≤ (width : ℚ))
  let outsideVertically :=
    decide (m.y ≤ halfHeight) || decide (viewport.height - m.y ≤ halfHeight)
  outsideHorizontally || outsideVertically

/-- Kinds of deferred teardown callbacks scheduled with setTimeout. -/
inductive TimerKind where
  | delayedUnrender
  | titleTeardown
deriving DecidableEq

/-- The renderer state: hint nodes, rectangle cache, the table of
outstanding timers with the remembered unrenderTimeoutId and a fresh-id
counter, the entered-text string, and the visual flags for the
placeholder, title, container attachment, stray containers and text
rectangles. -/
structure RState where
  hints : List Hint
  rects : RectCache
  timers : List (ℕ × TimerKind)
  unrenderTimeoutId : Option ℕ
  nextTimerId : ℕ
  enteredTextChars : String
  shruggie : Bool
  title : Option String
  containerAttached : Bool
  strayContainers : ℕ
  textRects : List ℕ
deriving DecidableEq

/-- State right after the constructor ran. -/
def initState : RState :=
  { hints := [], rects := [], timers := [], unrenderTimeoutId := none,
    nextTimerId := 0, enteredTextChars := "", shruggie := false,
    title := none, containerAttached := false, strayContainers := 0,
    textRects := [] }

/-- The margin corrections of moveInsideViewport for one node, given the
rectangle read at its turn; the four boundary checks run in source order
(left, top, right, bottom), later margin writes overriding earlier ones. -/
def correctHint (viewport : Viewport) (h : Hint) (rect : Rect) : Hint :=
  let h1 := if rect.left < 0 then
    { h with marginRight := some (jsRound rect.left) } else h
  let h2 := if rect.top < 0 then
    { h1 with marginTop := some (jsRound (-rect.top)) } else h1
  let h3 := if rect.right > viewport.width then
    { h2 with marginRight := some (jsRound (rect.right - viewport.width)) } else h2
  if rect.bottom > viewport.height then
    { h3 with marginTop := some (jsRound (viewport.height - rect.bottom)) } else h3

/-- Whether a rectangle crosses any viewport boundary, the disjunction of
the four conditions of moveInsideViewport. -/
def crossesViewport (viewport : Viewport) (rect : Rect) : Bool :=
  decide (rect.left < 0) || decide (rect.top < 0) ||
  decide (rect.right > viewport.width) || decide (rect.bottom > viewport.height)

/-- One iteration of the moveInsideViewport loop: read the node's live
rectangle, save it in the cache (Map.set modelled as a shadowing cons),
apply the margin corrections, and accumulate the moved flag. -/
def mivStep (viewport : Viewport) (acc : RState × Bool) (i : ℕ) :
    RState × Bool :=
  match acc.1.hints[i]? with
  | none => acc
  | some h =>
    let rect := hintRect viewport h
    ({ acc.1 with
        hints := acc.1.hints.set i (correctHint viewport h rect),
        rects := (h.id, rect) :: acc.1.rects },
      acc.2 || crossesViewport viewport rect)

/-- Method moveInsideViewport on the hints selected by `idxs` (positions
into the hints list; the DOM code passes the element references
directly).  Each selected node's live rectangle is read, saved in the
rectangle cache, and corrective margins are applied for every crossed
boundary.  Returns the updated state and whether any node was moved. -/
def moveInsideViewport (viewport : Viewport) (s : RState) (idxs : List ℕ) :
    RState × Bool :=
  idxs.foldl (mivStep viewport) (s, false)

/-- One entry of the UpdateHints message. -/
inductive HintUpdate where
  | hide (index : ℕ)
  | update (index : ℕ) (matchedChars restChars : String) (highlighted : Bool)
deriving DecidableEq

/-- The hint index an update refers to. -/
def HintUpdate.index : HintUpdate → ℕ
  | .hide i => i
  | .update i _ _ _ => i

/-- Whether the update has type Hide. -/
def HintUpdate.isHide : HintUpdate → Bool
  | .hide _ => true
  | .update _ _ _ _ => false

/-- Body of the updateHints loop for one update, threading the hints
list, the numHidden counter and the maybeNeedsMoveInsideViewport queue
(as hint indices).  A missing child is logged and skipped. -/
def applyHintUpdate (prevEntered entered : String)
    (acc : List Hint × ℕ × List ℕ) (u : HintUpdate) :
    List Hint × ℕ × List ℕ :=
  let (hints, numHidden, queue) := acc
  match hints[u.index]? with
  | none => (hints, numHidden, queue)
  | some child =>
    let child := { child with hiddenClass := u.isHide }
    match u with
    | .hide i => (hints.set i child, numHidden + 1, queue)
    | .update i matchedChars restChars highlighted =>
      let child := { child with matchedChars := "", restChars := "" }
      let cq : Hint × List ℕ :=
        if matchedChars ≠ "" then
          ({ child with matchedChars := matchedChars }, queue)
        else if entered ≠ prevEntered then
          ({ child with marginRight := none, marginTop := none }, queue ++ [i])
        else (child, queue)
      let child := { cq.1 with
        highlightedClass := highlighted,
        restChars := restChars }
      (hints.set i child, numHidden, cq.2)

/-- Whitespace of the entered text is mapped to no-break spaces before
being shown in the title. -/
def nbspify (s : String) : String :=
  ⟨s.data.map (fun c => if c.isWhitespace then Char.ofNat 160 else c)⟩

/-- Method updateHints: apply the batch in order, then show the
placeholder exactly when the number of Hide updates that found their
child equals the total number of hints, update the title from the
entered text, and re-run viewport correction on the queued nodes. -/
def updateHints (viewport : Viewport) (s : RState)
    (updates : List HintUpdate) (enteredTextChars : String) : RState :=
  let r := updates.foldl (applyHintUpdate s.enteredTextChars enteredTextChars)
    (s.hints, 0, [])
  let s1 := { s with hints := r.1 }
  let s2 := if r.2.1 = s1.hints.length
    then { s1 with shruggie := true } else { s1 with shruggie := false }
  let s3 := if enteredTextChars = "" then { s2 with title := none }
    else { s2 with title := some (nbspify enteredTextChars) }
  let s4 := if r.2.2.length > 0 then (moveInsideViewport viewport s3 r.2.2).1
    else s3
  { s4 with enteredTextChars := enteredTextChars }

/-- Current z-index of the hint with the given identity. -/
def zOfId (hints : List Hint) (i : ℕ) : ℤ :=
  match hints.find? (fun h => h.id == i) with
  | some h => h.z
  | none => 0

/-- Write a z-index on the hint with the given identity. -/
def setZ (hints : List Hint) (i : ℕ) (z : ℤ) : List Hint :=
  hints.map (fun h => if h.id = i then { h with z := z } else h)

/-- Body of rotateHints for one stack: stacks of at least two nodes are
sorted by the comparator (zA - zB) * sign, their z-indexes are read,
rotated by one position ([...rest, first]), and written back in order. -/
def applyStack (sign : ℤ) (hints : List Hint) (stack : List HintElem) :
    List Hint :=
  if 2 ≤ stack.length then
    let sorted := List.insertionSort
      (fun a b => (zOfId hints a.id - zOfId hints b.id) * sign ≤ 0) stack
    let zIndexes := (sorted.map (fun e => zOfId hints e.id)).rotate 1
    (sorted.zip zIndexes).foldl (fun acc p => setZ acc p.1.id p.2) hints
  else hints

/-- Method rotateHints.  The sign is 1 in both branches, reproducing the
source as written (forward and backward behave identically). -/
def rotateHints (viewport : Viewport) (forward : Bool) (s : RState) : RState :=
  let sign : ℤ := if forward then 1 else 1
  let allStacks := getStacks s.rects (s.hints.map (Hint.toElem viewport))
  { s with hints := allStacks.foldl (applyStack sign) s.hints }

/-- Method unrender: cancel any pending timer, drop all hints and the
rectangle cache, detach and empty the container (removing placeholder,
title and text rectangles), and remove every element carrying the
well-known container id, stray ones included. -/
def unrender (s : RState) : RState :=
  let timers := match s.unrenderTimeoutId with
    | some i => s.timers.filter (fun t => t.1 ≠ i)
    | none => s.timers
  { s with
    unrenderTimeoutId := none, timers := timers,
    hints := [], rects := [],
    containerAttached := false, shruggie := false, title := none,
    textRects := [], strayContainers := 0 }

/-- Method unrenderDelayed: if a timer is already pending it is kept and
nothing happens; otherwise a deferred full unrender is scheduled. -/
def unrenderDelayed (s : RState) : RState :=
  match s.unrenderTimeoutId with
  | some _ => s
  | none =>
    { s with
      unrenderTimeoutId := some s.nextTimerId,
      timers := s.timers ++ [(s.nextTimerId, TimerKind.delayedUnrender)],
      nextTimerId := s.nextTimerId + 1 }

/-- Method unrenderToTitle: cancel any pending timer, show the title
immediately, and schedule the hint/text-rect removal callback. -/
def unrenderToTitle (title : String) (s : RState) : RState :=
  let timers := match s.unrenderTimeoutId with
    | some i => s.timers.filter (fun t => t.1 ≠ i)
    | none => s.timers
  { s with
    title := some title,
    unrenderTimeoutId := some s.nextTimerId,
    timers := timers ++ [(s.nextTimerId, TimerKind.titleTeardown)],
    nextTimerId := s.nextTimerId + 1 }

/-- The host fires the outstanding timer, if any: the callback first
clears unrenderTimeoutId, then either runs a full unrender or, for the
title teardown, removes only hint nodes and text rectangles and clears
the rectangle cache, leaving container and title in place. -/
def fireTimer (s : RState) : RState :=
  match s.timers with
  | [] => s
  | (i, k) :: rest =>
    let s1 := { s with
      timers := rest,
      unrenderTimeoutId :=
        if s.unrenderTimeoutId = some i then none else s.unrenderTimeoutId }
    match k with
    | .delayedUnrender => unrender s1
    | .titleTeardown => { s1 with hints := [], rects := [], textRects := [] }

/-- Message RenderTextRects for a frame: first remove that frame's text
rectangles, then append one node per incoming rectangle. -/
def renderTextRects (frameId : ℕ) (numRects : ℕ) (s : RState) : RState :=
  { s with textRects :=
      s.textRects.filter (fun g => g ≠ frameId) ++
        List.replicate numRects frameId }

/-- Message UnrenderTextRects: remove text rectangles, all of them or
only one frame's. -/
def unrenderTextRects (frameId : Option ℕ) (s : RState) : RState :=
  match frameId with
  | none => { s with textRects := [] }
  | some f => { s with textRects := s.textRects.filter (fun g => g ≠ f) }

/-- Method render.  Guard on a missing document element; tear down the
previous render; re-attach the container; empty input shows the
placeholder; otherwise build one hint node per element in input order,
split them into capped edge nodes and rest, and run the two
viewport-correction passes (the paint awaits in between do not change
renderer state).  rect1 and rect2 are the measured probe rectangles and
hintHeight the laid-out height of a hint node. -/
def render (viewport : Viewport) (rect1 rect2 : Rect) (hintHeight : ℚ)
    (hasDocumentElement : Bool) (s : RState)
    (elements : List ElementWithHint) : RState :=
  if hasDocumentElement = false then s
  else
    let s2 := { unrender s with containerAttached := true }
    if elements.isEmpty then { s2 with shruggie := true }
    else
      let halfHeight : ℚ := ((⌈(rect1.bottom - rect1.top) / 2⌉ : ℤ) : ℚ)
      let hints := elements.mapIdx
        (fun index e => mkHintNode viewport rect1 rect2 hintHeight index e)
      let split := elements.enum.foldl
        (fun (acc : List ℕ × List ℕ) p =>
          let w := hintWidthOf rect1 rect2 p.2.hint
          if decide (acc.1.length < MAX_IMMEDIATE_HINT_MOVEMENTS) &&
              isEdgeElement viewport halfHeight p.2 w then
            (acc.1 ++ [p.1], acc.2)
          else (acc.1, acc.2 ++ [p.1]))
        ([], [])
      let s3 := { s2 with hints := hints }
      let s4 := if split.1.length > 0
        then (moveInsideViewport viewport s3 split.1).1 else s3
      (moveInsideViewport viewport s4 split.2).1

/-- States reachable from the constructor state through the renderer's
message handlers and timer callbacks. -/
inductive Reachable : RState → Prop where
  | init : Reachable initState
  | render (vp : Viewport) (r1 r2 : Rect) (hh : ℚ) (hd : Bool)
      (es : List ElementWithHint) {s : RState} :
      Reachable s → Reachable (render vp r1 r2 hh hd s es)
  | update (vp : Viewport) (us : List HintUpdate) (entered : String)
      {s : RState} : Reachable s → Reachable (updateHints vp s us entered)
  | rotate (vp : Viewport) (forward : Bool) {s : RState} :
      Reachable s → Reachable (rotateHints vp forward s)
  | unrender {s : RState} : Reachable s → Reachable (unrender s)
  | unrenderDelayed {s : RState} : Reachable s → Reachable (unrenderDelayed s)
  | unrenderToTitle (title : String) {s : RState} :
      Reachable s → Reachable (unrenderToTitle title s)
  | fire {s : RState} : Reachable s → Reachable (fireTimer s)
  | renderTextRects (frameId numRects : ℕ) {s : RState} :
      Reachable s → Reachable (renderTextRects frameId numRects s)
  | unrenderTextRects (frameId : Option ℕ) {s : RState} :
      Reachable s → Reachable (unrenderTextRects frameId s)

/-! ### Generic list helpers -/

theorem set_getElem?_self {α : Type} (l : List α) (i : ℕ) (a : α)
    (h : l[i]? = some a) : l.set i a = l := by
  induction l generalizing i with
  | nil => simp at h
  | cons x xs ih =>
    cases i with
    | zero =>
      simp only [List.getElem?_cons_zero, Option.some.injEq] at h
      simp [h]
    | succ n =>
      simp only [List.getElem?_cons_succ] at h
      simp [ih n h]

theorem perm_get_cons_eraseIdx {α : Type} (l : List α) (i : ℕ)
    (h : i < l.length) : l.Perm (l.get ⟨i, h⟩ :: l.eraseIdx i) := by
  induction l generalizing i with
  | nil => simp at h
  | cons a t ih =>
    cases i with
    | zero => simp
    | succ n =>
      have hn : n < t.length := by simpa using h
      have h1 := (ih n hn).cons a
      refine h1.trans ?_
      simpa using List.Perm.swap (t.get ⟨n, hn⟩) a (t.eraseIdx n)

/-! ### Frame lemmas for moveInsideViewport -/

/-- correctHint only writes the margin fields. -/
theorem correctHint_eq (viewport : Viewport) (h : Hint) (rect : Rect) :
    ∃ mr mt, correctHint viewport h rect =
      { h with marginRight := mr, marginTop := mt } := by
  unfold correctHint
  split <;> split <;> split <;> split <;> exact ⟨_, _, rfl⟩

theorem correctHint_z (viewport : Viewport) (h : Hint) (rect : Rect) :
    (correctHint viewport h rect).z = h.z := by
  obtain ⟨mr, mt, he⟩ := correctHint_eq viewport h rect
  rw [he]

theorem correctHint_id (viewport : Viewport) (h : Hint) (rect : Rect) :
    (correctHint viewport h rect).id = h.id := by
  obtain ⟨mr, mt, he⟩ := correctHint_eq viewport h rect
  rw [he]

/-- A moveInsideViewport pass preserves any per-hint observation that
margin writes cannot change (z-index, identity, label and so on). -/
theorem foldl_mivStep_hints_map {β : Type} (viewport : Viewport)
    (f : Hint → β)
    (hf : ∀ h rect, f (correctHint viewport h rect) = f h) :
    ∀ (idxs : List ℕ) (acc : RState × Bool),
      ((idxs.foldl (mivStep viewport) acc).1.hints.map f)
        = acc.1.hints.map f := by
  intro idxs
  induction idxs with
  | nil => intro acc; rfl
  | cons i idxs ih =>
    intro acc
    rw [List.foldl_cons, ih]
    unfold mivStep
    cases hg : acc.1.hints[i]? with
    | none => rfl
    | some h =>
      simp only [List.map_set, hf]
      apply set_getElem?_self
      simp [List.getElem?_map, hg]

theorem moveInsideViewport_hints_z (viewport : Viewport) (s : RState)
    (idxs : List ℕ) :
    (moveInsideViewport viewport s idxs).1.hints.map Hint.z
      = s.hints.map Hint.z :=
  foldl_mivStep_hints_map viewport Hint.z (correctHint_z viewport) idxs (s, false)

theorem moveInsideViewport_hints_id (viewport : Viewport) (s : RState)
    (idxs : List ℕ) :
    (moveInsideViewport viewport s idxs).1.hints.map Hint.id
      = s.hints.map Hint.id :=
  foldl_mivStep_hints_map viewport Hint.id (correctHint_id viewport) idxs (s, false)

theorem moveInsideViewport_hints_length (viewport : Viewport) (s : RState)
    (idxs : List ℕ) :
    (moveInsideViewport viewport s idxs).1.hints.length = s.hints.length := by
  have := congrArg List.length (moveInsideViewport_hints_z viewport s idxs)
  simpa using this

/-- A moveInsideViewport pass touches only the hints and the rectangle
cache; all other state components are left alone. -/
theorem foldl_mivStep_frame (viewport : Viewport) :
    ∀ (idxs : List ℕ) (acc : RState × Bool),
      (idxs.foldl (mivStep viewport) acc).1.timers = acc.1.timers ∧
      (idxs.foldl (mivStep viewport) acc).1.unrenderTimeoutId
        = acc.1.unrenderTimeoutId ∧
      (idxs.foldl (mivStep viewport) acc).1.nextTimerId = acc.1.nextTimerId ∧
      (idxs.foldl (mivStep viewport) acc).1.enteredTextChars
        = acc.1.enteredTextChars ∧
      (idxs.foldl (mivStep viewport) acc).1.shruggie = acc.1.shruggie ∧
      (idxs.foldl (mivStep viewport) acc).1.title = acc.1.title ∧
      (idxs.foldl (mivStep viewport) acc).1.containerAttached
        = acc.1.containerAttached ∧
      (idxs.foldl (mivStep viewport) acc).1.strayContainers
        = acc.1.strayContainers ∧
      (idxs.foldl (mivStep viewport) acc).1.textRects = acc.1.textRects := by
  intro idxs
  induction idxs with
  | nil => intro acc; exact ⟨rfl, rfl, rfl, rfl, rfl, rfl, rfl, rfl, rfl⟩
  | cons i idxs ih =>
    intro acc
    rw [List.foldl_cons]
    have h2 := ih (mivStep viewport acc i)
    have hstep : (mivStep viewport acc i).1.timers = acc.1.timers ∧
        (mivStep viewport acc i).1.unrenderTimeoutId = acc.1.unrenderTimeoutId ∧
        (mivStep viewport acc i).1.nextTimerId = acc.1.nextTimerId ∧
        (mivStep viewport acc i).1.enteredTextChars = acc.1.enteredTextChars ∧
        (mivStep viewport acc i).1.shruggie = acc.1.shruggie ∧
        (mivStep viewport acc i).1.title = acc.1.title ∧
        (mivStep viewport acc i).1.containerAttached = acc.1.containerAttached ∧
        (mivStep viewport acc i).1.strayContainers = acc.1.strayContainers ∧
        (mivStep viewport acc i).1.textRects = acc.1.textRects := by
      unfold mivStep
      cases acc.1.hints[i]? with
      | none => exact ⟨rfl, rfl, rfl, rfl, rfl, rfl, rfl, rfl, rfl⟩
      | some h => exact ⟨rfl, rfl, rfl, rfl, rfl, rfl, rfl, rfl, rfl⟩
    obtain ⟨a1, a2, a3, a4, a5, a6, a7, a8, a9⟩ := h2
    obtain ⟨b1, b2, b3, b4, b5, b6, b7, b8, b9⟩ := hstep
    exact ⟨a1.trans b1, a2.trans b2, a3.trans b3, a4.trans b4, a5.trans b5,
      a6.trans b6, a7.trans b7, a8.trans b8, a9.trans b9⟩

/-! ### Claim C8: unrender is idempotent and total -/

/-- Number of document nodes carrying the well-known container id: the
attached container plus any stray leftovers. -/
def containerNodeCount (s : RState) : ℕ :=
  (if s.containerAttached then 1 else 0) + s.strayContainers

/-- C8: unrender is idempotent and total over prior state: a second call
in a row is a no-op, calling it on the pristine initial state (before
any render) is a no-op, and after any unrender no node matching the
well-known container identifier remains in the document, strays
included. -/
theorem unrender_idempotent_total :
    (∀ s : RState, unrender (unrender s) = unrender s) ∧
    unrender initState = initState ∧
    (∀ s : RState, containerNodeCount (unrender s) = 0) :=
  ⟨fun _ => rfl, rfl, fun _ => rfl⟩

/-! ### Claim C6: alignment choice in render -/

/-- C6: during render, left alignment is used exactly when the element
requests align left and the hint's modelled right edge x + width stays
strictly inside the element's own right boundary maxX; exactly one of
the left / right position properties is set, together with top. -/
theorem mkHintNode_alignment (viewport : Viewport) (rect1 rect2 : Rect)
    (hintHeight : ℚ) (index : ℕ) (e : ElementWithHint) :
    ((mkHintNode viewport rect1 rect2 hintHeight index e).posLeft ≠ none ↔
      (e.hintMeasurements.align = Alignment.left ∧
        e.hintMeasurements.x + ((hintWidthOf rect1 rect2 e.hint : ℤ) : ℚ)
          < e.hintMeasurements.maxX)) ∧
    ((mkHintNode viewport rect1 rect2 hintHeight index e).posLeft = none ↔
      (mkHintNode viewport rect1 rect2 hintHeight index e).posRight ≠ none) ∧
    (mkHintNode viewport rect1 rect2 hintHeight index e).posTop
      = jsRound e.hintMeasurements.y := by
  by_cases hc : e.hintMeasurements.align = Alignment.left ∧
      e.hintMeasurements.x + ((hintWidthOf rect1 rect2 e.hint : ℤ) : ℚ)
        < e.hintMeasurements.maxX
  · constructor
    · simp [mkHintNode, hc]
    · constructor
      · simp [mkHintNode, hc]
      · simp [mkHintNode]
  · constructor
    · simp [mkHintNode, hc]
    · constructor
      · simp [mkHintNode, hc]
      · simp [mkHintNode]

/-! ### Claim C1: hint count and stacking indices after render -/

theorem render_hints_map_z (viewport : Viewport) (rect1 rect2 : Rect)
    (hintHeight : ℚ) (s : RState) (elements : List ElementWithHint) :
    (render viewport rect1 rect2 hintHeight true s elements).hints.map Hint.z
      = (List.range elements.length).map
          (fun i : ℕ => MAX_Z_INDEX - (i : ℤ)) := by
  unfold render
  rw [if_neg (by simp)]
  by_cases he : elements.isEmpty
  · have : elements = [] := List.isEmpty_iff.mp he
    subst this
    simp [unrender]
  · simp only [he, Bool.false_eq_true, if_false]
    have hcore : (elements.mapIdx
        (fun index e =>
          mkHintNode viewport rect1 rect2 hintHeight index e)).map Hint.z
        = (List.range elements.length).map
            (fun i : ℕ => MAX_Z_INDEX - (i : ℤ)) := by
      apply List.ext_getElem
      · simp
      · intro n h1 h2
        simp only [List.getElem_map, List.getElem_mapIdx, List.getElem_range]
        rfl
    split
    · rw [moveInsideViewport_hints_z, moveInsideViewport_hints_z]
      exact hcore
    · rw [moveInsideViewport_hints_z]
      exact hcore

/-- C1: after render on a list of N elements, exactly N hint nodes
exist; the stacking index of node i is MAX_Z_INDEX - i, so indices are
pairwise distinct and strictly decreasing in input order. -/
theorem render_hint_count_and_zindexes (viewport : Viewport)
    (rect1 rect2 : Rect) (hintHeight : ℚ) (s : RState)
    (elements : List ElementWithHint) :
    ((render viewport rect1 rect2 hintHeight true s elements).hints.length
        = elements.length) ∧
    (∀ i j
        (hi : i < (render viewport rect1 rect2 hintHeight true s
            elements).hints.length)
        (hj : j < (render viewport rect1 rect2 hintHeight true s
            elements).hints.length), i < j →
      ((render viewport rect1 rect2 hintHeight true s elements).hints.get
          ⟨j, hj⟩).z
        < ((render viewport rect1 rect2 hintHeight true s
            elements).hints.get ⟨i, hi⟩).z) ∧
    ((render viewport rect1 rect2 hintHeight true s
        elements).hints.map Hint.z).Nodup := by
  have hmap := render_hints_map_z viewport rect1 rect2 hintHeight s elements
  have hlen : (render viewport rect1 rect2 hintHeight true s
      elements).hints.length = elements.length := by
    have := congrArg List.length hmap
    simpa using this
  refine ⟨hlen, ?_, ?_⟩
  · intro i j hi hj hij
    have hget : ∀ (n : ℕ) (hn : n < (render viewport rect1 rect2 hintHeight
        true s elements).hints.length),
        ((render viewport rect1 rect2 hintHeight true s
          elements).hints.get ⟨n, hn⟩).z = MAX_Z_INDEX - (n : ℤ) := by
      intro n hn
      have h0 := congrArg (fun l => l.get? n) hmap
      simp only [List.get?_map] at h0
      rw [List.get?_eq_get hn] at h0
      rw [List.get?_eq_get (by simpa [hlen] using hn)] at h0
      simp only [Option.map_some, Option.some.injEq, List.get_range] at h0
      simpa using h0
    rw [hget i hi, hget j hj]
    omega
  · rw [hmap]
    refine List.Nodup.map ?_ (List.nodup_range _)
    intro a b hab
    simp only at hab
    omega

/-! ### Claim C4: teardown timer discipline -/

theorem foldl_mivStep_timers (viewport : Viewport) (idxs : List ℕ)
    (acc : RState × Bool) :
    (idxs.foldl (mivStep viewport) acc).1.timers = acc.1.timers :=
  (foldl_mivStep_frame viewport idxs acc).1

theorem foldl_mivStep_timeoutId (viewport : Viewport) (idxs : List ℕ)
    (acc : RState × Bool) :
    (idxs.foldl (mivStep viewport) acc).1.unrenderTimeoutId
      = acc.1.unrenderTimeoutId :=
  (foldl_mivStep_frame viewport idxs acc).2.1

/-- updateHints neither schedules nor cancels timers. -/
theorem updateHints_timers_frame (viewport : Viewport) (s : RState)
    (updates : List HintUpdate) (entered : String) :
    (updateHints viewport s updates entered).timers = s.timers ∧
    (updateHints viewport s updates entered).unrenderTimeoutId
      = s.unrenderTimeoutId := by
  simp only [updateHints, moveInsideViewport]
  constructor
  · repeat' split
    all_goals simp [foldl_mivStep_timers]
  · repeat' split
    all_goals simp [foldl_mivStep_timeoutId]

/-- rotateHints touches only the hint list. -/
theorem rotateHints_frame (viewport : Viewport) (forward : Bool)
    (s : RState) :
    (rotateHints viewport forward s).timers = s.timers ∧
    (rotateHints viewport forward s).unrenderTimeoutId
      = s.unrenderTimeoutId ∧
    (rotateHints viewport forward s).rects = s.rects :=
  ⟨rfl, rfl, rfl⟩

/-- Invariant tying the outstanding-timer table to the remembered
timeout id: the remembered id names the unique outstanding timer. -/
def timersConsistent (s : RState) : Prop :=
  match s.unrenderTimeoutId with
  | some i => ∃ k, s.timers = [(i, k)]
  | none => s.timers = []

theorem timersConsistent_of_eq {a b : RState} (ht : a.timers = b.timers)
    (hi : a.unrenderTimeoutId = b.unrenderTimeoutId) :
    timersConsistent b → timersConsistent a := by
  unfold timersConsistent
  rw [ht, hi]
  exact id

theorem unrender_timers_nil (s : RState) (hc : timersConsistent s) :
    (unrender s).timers = [] := by
  unfold timersConsistent at hc
  unfold unrender
  cases hi : s.unrenderTimeoutId with
  | none => rw [hi] at hc; simpa using hc
  | some i =>
    rw [hi] at hc
    obtain ⟨k, hk⟩ := hc
    simp [hk]

theorem reachable_timersConsistent (s : RState) (h : Reachable s) :
    timersConsistent s := by
  induction h with
  | init => exact rfl
  | render vp r1 r2 hh hd es hprev ih =>
    rename_i s'
    unfold render
    split
    · exact ih
    · have hu : timersConsistent (unrender s') := by
        unfold timersConsistent
        simpa using unrender_timers_nil s' ih
      split
      · exact timersConsistent_of_eq rfl rfl hu
      · refine timersConsistent_of_eq ?_ ?_ hu <;>
          simp [apply_ite, moveInsideViewport, foldl_mivStep_timers,
            foldl_mivStep_timeoutId]
  | update vp us entered hprev ih =>
    exact timersConsistent_of_eq (updateHints_timers_frame vp _ us entered).1
      (updateHints_timers_frame vp _ us entered).2 ih
  | rotate vp forward hprev ih =>
    exact timersConsistent_of_eq rfl rfl ih
  | unrender hprev ih =>
    have := unrender_timers_nil _ ih
    unfold timersConsistent
    simpa using this
  | unrenderDelayed hprev ih =>
    rename_i s'
    unfold unrenderDelayed
    cases hi : s'.unrenderTimeoutId with
    | some i => exact ih
    | none =>
      have ht : s'.timers = [] := by
        unfold timersConsistent at ih
        rw [hi] at ih
        exact ih
      exact ⟨TimerKind.delayedUnrender, by simp [ht]⟩
  | unrenderToTitle t hprev ih =>
    rename_i s'
    unfold timersConsistent at ih
    cases hi : s'.unrenderTimeoutId with
    | some i =>
      rw [hi] at ih
      obtain ⟨k, hk⟩ := ih
      refine ⟨TimerKind.titleTeardown, ?_⟩
      unfold unrenderToTitle
      rw [hi]
      simp [hk]
    | none =>
      rw [hi] at ih
      refine ⟨TimerKind.titleTeardown, ?_⟩
      unfold unrenderToTitle
      rw [hi]
      simp [ih]
  | fire hprev ih =>
    rename_i s'
    unfold timersConsistent at ih
    unfold fireTimer
    cases ht : s'.timers with
    | nil =>
      unfold timersConsistent
      cases hi : s'.unrenderTimeoutId with
      | some i => rw [hi, ht] at ih; simp at ih
      | none => exact ht
    | cons p rest =>
      obtain ⟨pi, pk⟩ := p
      cases hi : s'.unrenderTimeoutId with
      | none => rw [hi, ht] at ih; simp at ih
      | some i =>
        rw [hi, ht] at ih
        obtain ⟨k, hk⟩ := ih
        simp only [List.cons.injEq, Prod.mk.injEq] at hk
        obtain ⟨⟨hpi, hpk⟩, hrest⟩ := hk
        subst hpi
        subst hpk
        subst hrest
        simp only [hi, if_pos]
        cases pk with
        | delayedUnrender =>
          unfold unrender timersConsistent
          simp
        | titleTeardown =>
          unfold timersConsistent
          simp
  | renderTextRects frameId numRects hprev ih =>
    exact timersConsistent_of_eq rfl rfl ih
  | unrenderTextRects frameId hprev ih =>
    cases frameId with
    | none => exact timersConsistent_of_eq rfl rfl ih
    | some f => exact timersConsistent_of_eq rfl rfl ih

/-- C4 (amended): at every reachable state at most one deferred-teardown
timer is outstanding; an immediate unrender and a title teardown cancel
(and, for title, replace) any pending timer before establishing their own
effect; but a delayed teardown request arriving while a timer is pending
keeps the existing timer untouched and schedules nothing, rather than
cancelling and replacing it. -/
theorem teardown_timer_discipline :
    (∀ s : RState, Reachable s → s.timers.length ≤ 1) ∧
    (∀ s : RState, Reachable s →
      (unrender s).unrenderTimeoutId = none ∧ (unrender s).timers = []) ∧
    (∀ (s : RState) (t : String), Reachable s →
      (unrenderToTitle t s).timers
        = [(s.nextTimerId, TimerKind.titleTeardown)]) ∧
    (∀ s : RState, s.unrenderTimeoutId ≠ none → unrenderDelayed s = s) := by
  refine ⟨?_, ?_, ?_, ?_⟩
  · intro s hs
    have hc := reachable_timersConsistent s hs
    unfold timersConsistent at hc
    cases hi : s.unrenderTimeoutId with
    | some i => rw [hi] at hc; obtain ⟨k, hk⟩ := hc; simp [hk]
    | none => rw [hi] at hc; simp [hc]
  · intro s hs
    exact ⟨rfl, unrender_timers_nil s (reachable_timersConsistent s hs)⟩
  · intro s t hs
    have hc := reachable_timersConsistent s hs
    unfold timersConsistent at hc
    unfold unrenderToTitle
    cases hi : s.unrenderTimeoutId with
    | some i => rw [hi] at hc; obtain ⟨k, hk⟩ := hc; simp [hk]
    | none => rw [hi] at hc; simp [hc]
  · intro s hne
    unfold unrenderDelayed
    cases hi : s.unrenderTimeoutId with
    | some i => rfl
    | none => exact absurd hi hne

/-- C4 counterexample: with the title-teardown timer pending, a delayed
teardown request leaves the very same timer outstanding instead of
cancelling and replacing it (the state is completely unchanged). -/
theorem unrenderDelayed_keeps_pending_counterexample :
    (unrenderToTitle "done" initState).unrenderTimeoutId = some 0 ∧
    (unrenderToTitle "done" initState).timers
      = [(0, TimerKind.titleTeardown)] ∧
    unrenderDelayed (unrenderToTitle "done" initState)
      = unrenderToTitle "done" initState :=
  ⟨rfl, rfl, rfl⟩

/-- Witness for the amended teardown discipline at concrete reachable
states. -/
theorem teardown_timer_discipline_witness :
    (unrenderDelayed initState).timers.length ≤ 1 ∧
    (unrender (unrenderDelayed initState)).timers = [] ∧
    (unrenderToTitle "bye" initState).timers
      = [(0, TimerKind.titleTeardown)] ∧
    unrenderDelayed (unrenderDelayed initState)
      = unrenderDelayed initState :=
  ⟨teardown_timer_discipline.1 _ (Reachable.unrenderDelayed Reachable.init),
   (teardown_timer_discipline.2.1 _
      (Reachable.unrenderDelayed Reachable.init)).2,
   teardown_timer_discipline.2.2.1 initState "bye" Reachable.init,
   teardown_timer_discipline.2.2.2 _ (by decide)⟩

/-! ### Claims C9, C10, C5: the updateHints batch -/

theorem applyHintUpdate_length (p e : String)
    (acc : List Hint × ℕ × List ℕ) (u : HintUpdate) :
    (applyHintUpdate p e acc u).1.length = acc.1.length := by
  obtain ⟨hints, n, q⟩ := acc
  unfold applyHintUpdate
  cases hg : hints[u.index]? with
  | none => simp [hg]
  | some child => cases u <;> simp [hg, List.length_set]

theorem foldl_applyHintUpdate_length (p e : String) :
    ∀ (us : List HintUpdate) (acc : List Hint × ℕ × List ℕ),
      (us.foldl (applyHintUpdate p e) acc).1.length = acc.1.length := by
  intro us
  induction us with
  | nil => intro acc; rfl
  | cons u us ih =>
    intro acc
    rw [List.foldl_cons, ih, applyHintUpdate_length]

/-- C9: an update whose index refers to a hint node that no longer
exists is skipped without aborting: removing it from the batch leaves
the result of updateHints unchanged, so all remaining updates are still
applied and the operation never fails. -/
theorem updateHints_missing_index_skipped (viewport : Viewport)
    (s : RState) (us1 us2 : List HintUpdate) (u : HintUpdate)
    (entered : String) (hmiss : s.hints.length ≤ u.index) :
    updateHints viewport s (us1 ++ u :: us2) entered
      = updateHints viewport s (us1 ++ us2) entered := by
  have hr : (us1 ++ u :: us2).foldl
        (applyHintUpdate s.enteredTextChars entered) (s.hints, 0, [])
      = (us1 ++ us2).foldl
        (applyHintUpdate s.enteredTextChars entered) (s.hints, 0, []) := by
    rw [List.foldl_append, List.foldl_append, List.foldl_cons]
    congr 1
    have hlen := foldl_applyHintUpdate_length s.enteredTextChars entered us1
      (s.hints, 0, ([] : List ℕ))
    generalize us1.foldl (applyHintUpdate s.enteredTextChars entered)
        (s.hints, 0, ([] : List ℕ)) = acc at hlen ⊢
    obtain ⟨ah, an, aq⟩ := acc
    unfold applyHintUpdate
    have hnone : ah[u.index]? = none := by
      apply List.getElem?_eq_none
      simpa [hlen] using hmiss
    simp [hnone]
  simp only [updateHints]
  rw [hr]

theorem foldl_mivStep_shruggie (viewport : Viewport) (idxs : List ℕ)
    (acc : RState × Bool) :
    (idxs.foldl (mivStep viewport) acc).1.shruggie = acc.1.shruggie :=
  (foldl_mivStep_frame viewport idxs acc).2.2.2.2.1

theorem foldl_applyHintUpdate_invalid (p e : String) :
    ∀ (us : List HintUpdate) (hints : List Hint) (n : ℕ) (q : List ℕ),
      (∀ u ∈ us, hints.length ≤ u.index) →
      us.foldl (applyHintUpdate p e) (hints, n, q) = (hints, n, q) := by
  intro us
  induction us with
  | nil => intro hints n q _; rfl
  | cons u us ih =>
    intro hints n q hinv
    rw [List.foldl_cons]
    have hstep : applyHintUpdate p e (hints, n, q) u = (hints, n, q) := by
      unfold applyHintUpdate
      have hnone : hints[u.index]? = none :=
        List.getElem?_eq_none (hinv u (by simp))
      simp [hnone]
    rw [hstep]
    exact ih hints n q (fun v hv => hinv v (by simp [hv]))

/-- C10: the placeholder decision depends only on the current batch.  A
batch with no Hide update removes the placeholder whenever at least one
hint exists, even when every hint node still carries the hidden class
from earlier batches (here: a batch that does not address any existing
hint at all leaves every hint hidden yet hides the placeholder). -/
theorem updateHints_placeholder_batch_only (viewport : Viewport)
    (s : RState) (us : List HintUpdate) (entered : String)
    (hn : 0 < s.hints.length)
    (_hnohide : ∀ u ∈ us, u.isHide = false)
    (hinvalid : ∀ u ∈ us, s.hints.length ≤ u.index)
    (hhidden : ∀ h ∈ s.hints, h.hiddenClass = true) :
    (updateHints viewport s us entered).shruggie = false ∧
    ∀ h ∈ (updateHints viewport s us entered).hints,
      h.hiddenClass = true := by
  have hfold := foldl_applyHintUpdate_invalid s.enteredTextChars entered us
    s.hints 0 [] hinvalid
  constructor
  · simp only [updateHints, hfold]
    simp [apply_ite RState.shruggie, foldl_mivStep_shruggie, hn.ne]
  · simp only [updateHints, hfold]
    simpa [apply_ite RState.hints, hn.ne] using hhidden

/-- The numHidden counter after the batch counts exactly the Hide
updates whose index found a hint node. -/
theorem foldl_applyHintUpdate_numHidden (p e : String) :
    ∀ (us : List HintUpdate) (hints : List Hint) (n : ℕ) (q : List ℕ),
      (us.foldl (applyHintUpdate p e) (hints, n, q)).2.1
        = n + (us.filter (fun u => u.isHide &&
            decide (u.index < hints.length))).length := by
  intro us
  induction us with
  | nil => intro hints n q; simp
  | cons u us ih =>
    intro hints n q
    rw [List.foldl_cons]
    cases hg : hints[u.index]? with
    | none =>
      have hlen : hints.length ≤ u.index := by
        by_contra hc
        rw [List.getElem?_eq_getElem (by omega)] at hg
        exact Option.noConfusion hg
      have hstep : applyHintUpdate p e (hints, n, q) u = (hints, n, q) := by
        unfold applyHintUpdate
        simp [hg]
      rw [hstep, ih]
      have : (u.isHide && decide (u.index < hints.length)) = false := by
        simp; omega
      simp [List.filter_cons, this]
    | some child =>
      have hlt : u.index < hints.length := by
        by_contra hc
        rw [List.getElem?_eq_none (by omega)] at hg
        exact Option.noConfusion hg
      cases u with
      | hide i =>
        have hstep : applyHintUpdate p e (hints, n, q) (HintUpdate.hide i)
            = (hints.set i { child with hiddenClass := true }, n + 1, q) := by
          unfold applyHintUpdate
          simp only [hg]
          rfl
        rw [hstep, ih]
        rw [List.length_set]
        rw [List.filter_cons_of_pos
          (by simp [HintUpdate.isHide, HintUpdate.index] at hlt ⊢; exact hlt)]
        simp only [List.length_cons]
        omega
      | update i mc rc hl =>
        have hstep : ∃ child' q',
            applyHintUpdate p e (hints, n, q) (HintUpdate.update i mc rc hl)
              = (hints.set i child', n, q') := by
          unfold applyHintUpdate
          simp only [hg]
          exact ⟨_, _, rfl⟩
        obtain ⟨child', q', hstep⟩ := hstep
        rw [hstep, ih]
        simp [List.filter_cons, HintUpdate.isHide, List.length_set]

theorem moveInsideViewport_shruggie (viewport : Viewport) (s : RState)
    (idxs : List ℕ) :
    (moveInsideViewport viewport s idxs).1.shruggie = s.shruggie :=
  foldl_mivStep_shruggie viewport idxs (s, false)

/-- The placeholder is shown after a batch exactly when the number of
Hide updates that found their hint equals the number of hints. -/
theorem updateHints_shruggie_iff (viewport : Viewport) (s : RState)
    (us : List HintUpdate) (entered : String) :
    (updateHints viewport s us entered).shruggie
      = decide ((us.filter (fun u => u.isHide &&
          decide (u.index < s.hints.length))).length = s.hints.length) := by
  have hnum := foldl_applyHintUpdate_numHidden s.enteredTextChars entered us
    s.hints 0 []
  have hlen := foldl_applyHintUpdate_length s.enteredTextChars entered us
    (s.hints, 0, ([] : List ℕ))
  simp only [updateHints]
  by_cases hc : (us.foldl (applyHintUpdate s.enteredTextChars entered)
      (s.hints, 0, [])).2.1
      = (us.foldl (applyHintUpdate s.enteredTextChars entered)
        (s.hints, 0, [])).1.length
  · rw [if_pos hc]
    rw [hnum, hlen] at hc
    simp only [Nat.zero_add] at hc
    simp [apply_ite RState.shruggie, moveInsideViewport_shruggie, hc]
  · rw [if_neg hc]
    rw [hnum, hlen] at hc
    simp only [Nat.zero_add] at hc
    simp [apply_ite RState.shruggie, moveInsideViewport_shruggie, hc]

theorem nodup_map_ne {α β : Type} (f : α → β) {l : List α}
    (h : (l.map f).Nodup) {a b : α} (ha : a ∈ l) (hb : b ∈ l)
    (hne : a ≠ b) : f a ≠ f b := by
  induction l with
  | nil => simp at ha
  | cons x t ih =>
    rw [List.map_cons, List.nodup_cons] at h
    rcases List.mem_cons.mp ha with ha1 | ha1 <;>
      rcases List.mem_cons.mp hb with hb1 | hb1
    · exact absurd (ha1.trans hb1.symm) hne
    · subst ha1
      intro he
      exact h.1 (he ▸ List.mem_map_of_mem f hb1)
    · subst hb1
      intro he
      exact h.1 (he ▸ List.mem_map_of_mem f ha1)
    · exact ih h.2 ha1 hb1

/-- C5 (amended): for a batch whose updates carry pairwise-distinct
indices, if every update is a Hide and every existing hint receives one,
the placeholder is shown; and if any update of type Update addresses an
existing hint, the placeholder is removed. -/
theorem updateHints_placeholder_amended (viewport : Viewport) (s : RState)
    (us : List HintUpdate) (entered : String)
    (hnodup : (us.map HintUpdate.index).Nodup) :
    ((∀ u ∈ us, u.isHide = true) →
      (∀ i, i < s.hints.length → ∃ u ∈ us, u.index = i) →
      (updateHints viewport s us entered).shruggie = true) ∧
    ((∃ u ∈ us, u.isHide = false ∧ u.index < s.hints.length) →
      (updateHints viewport s us entered).shruggie = false) := by
  have hnodupF : ((us.filter (fun u => u.isHide &&
      decide (u.index < s.hints.length))).map HintUpdate.index).Nodup :=
    List.Nodup.sublist
      (List.Sublist.map HintUpdate.index (List.filter_sublist us)) hnodup
  constructor
  · intro hall hcov
    rw [updateHints_shruggie_iff]
    simp only [decide_eq_true_eq]
    have hfin : ((us.filter (fun u => u.isHide &&
        decide (u.index < s.hints.length))).map HintUpdate.index).toFinset
        = Finset.range s.hints.length := by
      ext x
      simp only [List.mem_toFinset, List.mem_map, List.mem_filter,
        Finset.mem_range]
      constructor
      · rintro ⟨u, ⟨hu, hp⟩, rfl⟩
        rw [Bool.and_eq_true] at hp
        simpa using hp.2
      · intro hx
        obtain ⟨u, hu, hui⟩ := hcov x hx
        exact ⟨u, ⟨hu, by simp [hall u hu, hui, hx]⟩, hui⟩
    have hcard := congrArg Finset.card hfin
    rw [List.toFinset_card_of_nodup hnodupF, Finset.card_range,
      List.length_map] at hcard
    exact hcard
  · rintro ⟨u0, hu0, hh0, hlt0⟩
    rw [updateHints_shruggie_iff]
    simp only [decide_eq_false_iff_not]
    intro hcontra
    have hsub : ((us.filter (fun u => u.isHide &&
        decide (u.index < s.hints.length))).map HintUpdate.index).toFinset
        ⊆ (Finset.range s.hints.length).erase u0.index := by
      intro x hx
      simp only [List.mem_toFinset, List.mem_map, List.mem_filter] at hx
      obtain ⟨u, ⟨hu, hp⟩, rfl⟩ := hx
      rw [Bool.and_eq_true] at hp
      have hhide : u.isHide = true := hp.1
      have hxlt : u.index < s.hints.length := by
        simpa using hp.2
      refine Finset.mem_erase.mpr ⟨?_, Finset.mem_range.mpr hxlt⟩
      have hune : u ≠ u0 := by
        intro he
        rw [he, hh0] at hhide
        exact Bool.noConfusion hhide
      exact nodup_map_ne HintUpdate.index hnodup hu hu0 hune
    have hcard := Finset.card_le_card hsub
    rw [List.toFinset_card_of_nodup hnodupF, List.length_map] at hcard
    have hcardR : ((Finset.range s.hints.length).erase u0.index).card
        = s.hints.length - 1 := by
      rw [Finset.card_erase_of_mem (Finset.mem_range.mpr hlt0),
        Finset.card_range]
    omega

/-- A concrete hint node used by the concrete examples below. -/
def sampleHint : Hint :=
  { id := 0, label := "a", posLeft := some 5, posRight := none,
    posTop := 10, z := 100, hiddenClass := false, highlightedClass := false,
    matchedChars := "", restChars := "a", marginRight := none,
    marginTop := none, width := 10, height := 10 }

/-- A state holding exactly one rendered hint. -/
def oneHintState : RState := { initState with hints := [sampleHint] }

/-- C5 counterexample: with one rendered hint, the batch
[Hide 0, Hide 0] contains a Hide update for every existing hint, yet the
placeholder is not shown, because the loop counts Hide updates (twice
here) and compares the count with the number of hints. -/
theorem updateHints_hide_every_hint_counterexample :
    oneHintState.hints.length = 1 ∧
    HintUpdate.hide 0 ∈ [HintUpdate.hide 0, HintUpdate.hide 0] ∧
    (updateHints ⟨100, 100⟩ oneHintState
        [HintUpdate.hide 0, HintUpdate.hide 0] "").shruggie = false := by
  refine ⟨rfl, by simp, rfl⟩

/-- Witness for the amended placeholder rule on a one-hint state: one
Hide covering the only hint shows the placeholder; an Update addressing
it removes the placeholder. -/
theorem updateHints_placeholder_amended_witness :
    (updateHints ⟨100, 100⟩ oneHintState [HintUpdate.hide 0] "").shruggie
      = true ∧
    (updateHints ⟨100, 100⟩ oneHintState
        [HintUpdate.update 0 "" "a" false] "").shruggie = false := by
  constructor
  · refine (updateHints_placeholder_amended ⟨100, 100⟩ oneHintState
      [HintUpdate.hide 0] "" (by simp)).1 ?_ ?_
    · intro u hu
      simp only [List.mem_singleton] at hu
      subst hu
      rfl
    · intro i hi
      refine ⟨HintUpdate.hide 0, by simp, ?_⟩
      have h1 : i < 1 := by
        simpa [oneHintState, initState] using hi
      simp only [HintUpdate.index]
      omega
  · refine (updateHints_placeholder_amended ⟨100, 100⟩ oneHintState
      [HintUpdate.update 0 "" "a" false] "" (by simp)).2 ?_
    refine ⟨HintUpdate.update 0 "" "a" false, by simp, rfl, ?_⟩
    show (HintUpdate.update 0 "" "a" false).index < oneHintState.hints.length
    simp [HintUpdate.index, oneHintState, initState]

/-- A hint node carrying the hidden class from an earlier batch. -/
def hiddenHint : Hint := { sampleHint with hiddenClass := true }

/-- A state whose only hint was hidden by an earlier batch. -/
def oneHiddenState : RState := { initState with hints := [hiddenHint] }

/-- Witness for C10: an empty later batch removes the placeholder even
though the hint still carries the hidden class. -/
theorem updateHints_placeholder_batch_only_witness :
    (updateHints ⟨100, 100⟩ oneHiddenState [] "").shruggie = false ∧
    ∀ h ∈ (updateHints ⟨100, 100⟩ oneHiddenState [] "").hints,
      h.hiddenClass = true :=
  updateHints_placeholder_batch_only ⟨100, 100⟩ oneHiddenState [] ""
    (by decide) (by simp) (by simp) (by decide)

/-- Witness for C9: a Hide for the stale index 7 in the middle of a
batch is skipped; the surrounding updates are still applied. -/
theorem updateHints_missing_index_skipped_witness :
    updateHints ⟨100, 100⟩ oneHintState
        ([HintUpdate.hide 0] ++ HintUpdate.hide 7 :: []) ""
      = updateHints ⟨100, 100⟩ oneHintState ([HintUpdate.hide 0] ++ []) "" :=
  updateHints_missing_index_skipped ⟨100, 100⟩ oneHintState
    [HintUpdate.hide 0] [] (HintUpdate.hide 7) "" (by decide)

/-! ### Claim C2: viewport correction -/

/-- Math.round moves a value by at most half a pixel. -/
theorem jsRound_bounds (x : ℚ) :
    -(1/2 : ℚ) ≤ x - (jsRound x : ℚ) ∧ x - (jsRound x : ℚ) ≤ 1/2 := by
  unfold jsRound
  constructor
  · have := Int.floor_le (x + 1/2)
    linarith
  · have := Int.sub_one_lt_floor (x + 1/2)
    linarith

/-- The rectangle of a right-positioned hint in terms of its styles. -/
theorem hintRect_fields (vp : Viewport) (h : Hint) (r : ℤ)
    (hpl : h.posLeft = none) (hpr : h.posRight = some r) :
    (hintRect vp h).left
      = vp.width - (r : ℚ) - ((h.marginRight.getD 0 : ℤ) : ℚ) - h.width ∧
    (hintRect vp h).right
      = vp.width - (r : ℚ) - ((h.marginRight.getD 0 : ℤ) : ℚ) ∧
    (hintRect vp h).top
      = (h.posTop : ℚ) + ((h.marginTop.getD 0 : ℤ) : ℚ) - h.height / 2 ∧
    (hintRect vp h).bottom
      = (h.posTop : ℚ) + ((h.marginTop.getD 0 : ℤ) : ℚ) + h.height / 2 := by
  unfold hintRect
  rw [hpl, hpr]
  exact ⟨rfl, rfl, rfl, rfl⟩

theorem correctHint_posLeft (vp : Viewport) (h : Hint) (rect : Rect) :
    (correctHint vp h rect).posLeft = h.posLeft := by
  obtain ⟨mr, mt, he⟩ := correctHint_eq vp h rect
  rw [he]

theorem correctHint_posRight (vp : Viewport) (h : Hint) (rect : Rect) :
    (correctHint vp h rect).posRight = h.posRight := by
  obtain ⟨mr, mt, he⟩ := correctHint_eq vp h rect
  rw [he]

theorem correctHint_posTop (vp : Viewport) (h : Hint) (rect : Rect) :
    (correctHint vp h rect).posTop = h.posTop := by
  obtain ⟨mr, mt, he⟩ := correctHint_eq vp h rect
  rw [he]

theorem correctHint_width (vp : Viewport) (h : Hint) (rect : Rect) :
    (correctHint vp h rect).width = h.width := by
  obtain ⟨mr, mt, he⟩ := correctHint_eq vp h rect
  rw [he]

theorem correctHint_height (vp : Viewport) (h : Hint) (rect : Rect) :
    (correctHint vp h rect).height = h.height := by
  obtain ⟨mr, mt, he⟩ := correctHint_eq vp h rect
  rw [he]

theorem correctHint_marginRight_of_left (vp : Viewport) (h : Hint)
    (rect : Rect) (hA : rect.left < 0) (hC : ¬(rect.right > vp.width)) :
    (correctHint vp h rect).marginRight = some (jsRound rect.left) := by
  unfold correctHint
  rw [if_pos hA]
  simp only [if_neg hC]
  split <;> split <;> rfl

theorem correctHint_marginRight_of_right (vp : Viewport) (h : Hint)
    (rect : Rect) (hC : rect.right > vp.width) :
    (correctHint vp h rect).marginRight
      = some (jsRound (rect.right - vp.width)) := by
  unfold correctHint
  simp only [if_pos hC]
  split <;> split <;> rfl

theorem correctHint_marginRight_of_none (vp : Viewport) (h : Hint)
    (rect : Rect) (hA : ¬(rect.left < 0)) (hC : ¬(rect.right > vp.width)) :
    (correctHint vp h rect).marginRight = h.marginRight := by
  unfold correctHint
  simp only [if_neg hA, if_neg hC]
  split <;> split <;> rfl

theorem correctHint_marginTop_of_top (vp : Viewport) (h : Hint)
    (rect : Rect) (hB : rect.top < 0) (hD : ¬(rect.bottom > vp.height)) :
    (correctHint vp h rect).marginTop = some (jsRound (-rect.top)) := by
  simp only [correctHint, if_pos hB, if_neg hD]
  split <;> rfl

theorem correctHint_marginTop_of_bottom (vp : Viewport) (h : Hint)
    (rect : Rect) (hD : rect.bottom > vp.height) :
    (correctHint vp h rect).marginTop
      = some (jsRound (vp.height - rect.bottom)) := by
  simp only [correctHint, if_pos hD]

theorem correctHint_marginTop_of_none (vp : Viewport) (h : Hint)
    (rect : Rect) (hB : ¬(rect.top < 0)) (hD : ¬(rect.bottom > vp.height)) :
    (correctHint vp h rect).marginTop = h.marginTop := by
  simp only [correctHint, if_neg hB, if_neg hD]
  split <;> split <;> rfl

/-- Behaviour of one moveInsideViewport correction on a right/top
positioned node with no prior margin overrides and a box no larger than
the viewport: an uncrossed node is untouched, and every corrected edge
ends within half a pixel of its viewport bound (rounding can leave up to
half a pixel of residue). -/
theorem correctHint_spec (vp : Viewport) (h : Hint) (r : ℤ)
    (hpl : h.posLeft = none) (hpr : h.posRight = some r)
    (hmr : h.marginRight = none) (hmt : h.marginTop = none)
    (hwv : h.width ≤ vp.width) (hhv : h.height ≤ vp.height) :
    (crossesViewport vp (hintRect vp h) = false →
      correctHint vp h (hintRect vp h) = h) ∧
    ((hintRect vp h).left < 0 →
      -(1/2 : ℚ) ≤ (hintRect vp (correctHint vp h (hintRect vp h))).left) ∧
    ((hintRect vp h).right > vp.width →
      (hintRect vp (correctHint vp h (hintRect vp h))).right
        ≤ vp.width + 1/2) ∧
    ((hintRect vp h).top < 0 →
      -(1/2 : ℚ) ≤ (hintRect vp (correctHint vp h (hintRect vp h))).top) ∧
    ((hintRect vp h).bottom > vp.height →
      (hintRect vp (correctHint vp h (hintRect vp h))).bottom
        ≤ vp.height + 1/2) := by
  obtain ⟨hL, hR, hT, hB⟩ := hintRect_fields vp h r hpl hpr
  rw [hmr] at hL hR
  rw [hmt] at hT hB
  simp only [Option.getD_none, Int.cast_zero, sub_zero, add_zero] at hL hR hT hB
  have hfields' := hintRect_fields vp (correctHint vp h (hintRect vp h)) r
    ((correctHint_posLeft vp h (hintRect vp h)).trans hpl)
    ((correctHint_posRight vp h (hintRect vp h)).trans hpr)
  rw [correctHint_width] at hfields'
  rw [correctHint_posTop] at hfields'
  rw [correctHint_height] at hfields'
  obtain ⟨hL', hR', hT', hB'⟩ := hfields'
  refine ⟨?_, ?_, ?_, ?_, ?_⟩
  · intro hcross
    simp only [crossesViewport, Bool.or_eq_false_iff, decide_eq_false_iff_not]
      at hcross
    obtain ⟨⟨⟨hA, hBn⟩, hC⟩, hD⟩ := hcross
    simp only [correctHint, if_neg hA, if_neg hBn, if_neg hC, if_neg hD]
  · intro hA
    have hC : ¬((hintRect vp h).right > vp.width) := by
      rw [hR]
      rw [hL] at hA
      linarith
    rw [correctHint_marginRight_of_left vp h (hintRect vp h) hA hC] at hL'
    have hbd := jsRound_bounds (hintRect vp h).left
    rw [hL] at hbd
    rw [hL] at hA
    rw [hL] at hL'
    simp only [Option.getD_some] at hL'
    rw [hL']
    linarith [hbd.1]
  · intro hC
    rw [correctHint_marginRight_of_right vp h (hintRect vp h) hC] at hR'
    have hbd := jsRound_bounds ((hintRect vp h).right - vp.width)
    rw [hR] at hbd
    rw [hR] at hC
    rw [hR] at hR'
    simp only [Option.getD_some] at hR'
    rw [hR']
    linarith [hbd.1]
  · intro hBn
    have hD : ¬((hintRect vp h).bottom > vp.height) := by
      rw [hB]
      rw [hT] at hBn
      linarith
    rw [correctHint_marginTop_of_top vp h (hintRect vp h) hBn hD] at hT'
    have hbd := jsRound_bounds (-(hintRect vp h).top)
    rw [hT] at hbd
    rw [hT] at hBn
    rw [hT] at hT'
    simp only [Option.getD_some] at hT'
    rw [hT']
    linarith [hbd.2]
  · intro hD
    rw [correctHint_marginTop_of_bottom vp h (hintRect vp h) hD] at hB'
    have hbd := jsRound_bounds (vp.height - (hintRect vp h).bottom)
    rw [hB] at hbd
    rw [hB] at hD
    rw [hB] at hB'
    simp only [Option.getD_some] at hB'
    rw [hB']
    linarith [hbd.1]

theorem list_any_congr {α : Type} {f g : α → Bool} :
    ∀ {l : List α}, (∀ x ∈ l, f x = g x) → l.any f = l.any g := by
  intro l
  induction l with
  | nil => intro _; rfl
  | cons a t ih =>
    intro hfg
    simp only [List.any_cons]
    rw [hfg a (by simp), ih (fun x hx => hfg x (by simp [hx]))]

theorem mivStep_frame_getElem (viewport : Viewport) (acc : RState × Bool)
    (i j : ℕ) (hne : j ≠ i) :
    (mivStep viewport acc i).1.hints[j]? = acc.1.hints[j]? := by
  unfold mivStep
  cases hg : acc.1.hints[i]? with
  | none => rfl
  | some h => simp [List.getElem?_set, Ne.symm hne]

theorem foldl_mivStep_frame_getElem (viewport : Viewport) :
    ∀ (idxs : List ℕ) (acc : RState × Bool) (j : ℕ), j ∉ idxs →
      (idxs.foldl (mivStep viewport) acc).1.hints[j]?
        = acc.1.hints[j]? := by
  intro idxs
  induction idxs with
  | nil => intro acc j _; rfl
  | cons a rest ih =>
    intro acc j hj
    rw [List.foldl_cons, ih _ _ (fun hmem => hj (by simp [hmem]))]
    exact mivStep_frame_getElem viewport acc a j
      (fun he => hj (by simp [he]))

theorem foldl_mivStep_point (viewport : Viewport) :
    ∀ (idxs : List ℕ) (acc : RState × Bool) (i : ℕ), idxs.Nodup →
      i ∈ idxs → ∀ h, acc.1.hints[i]? = some h →
      (idxs.foldl (mivStep viewport) acc).1.hints[i]?
        = some (correctHint viewport h (hintRect viewport h)) := by
  intro idxs
  induction idxs with
  | nil => intro acc i _ hi; simp at hi
  | cons a rest ih =>
    intro acc i hnodup hi h hh
    rw [List.nodup_cons] at hnodup
    rw [List.foldl_cons]
    rcases List.mem_cons.mp hi with rfl | hmem
    · rw [foldl_mivStep_frame_getElem viewport rest _ i hnodup.1]
      unfold mivStep
      rw [hh]
      have hlt : i < acc.1.hints.length := by
        by_contra hc
        rw [List.getElem?_eq_none (by omega)] at hh
        exact Option.noConfusion hh
      simp [List.getElem?_set, hlt]
    · have hne : i ≠ a := fun he => hnodup.1 (he ▸ hmem)
      refine ih _ i hnodup.2 hmem h ?_
      rw [mivStep_frame_getElem viewport acc a i hne]
      exact hh

theorem foldl_mivStep_moved (viewport : Viewport) :
    ∀ (idxs : List ℕ) (acc : RState × Bool), idxs.Nodup →
      (idxs.foldl (mivStep viewport) acc).2
        = (acc.2 || idxs.any (fun i =>
            match acc.1.hints[i]? with
            | some h => crossesViewport viewport (hintRect viewport h)
            | none => false)) := by
  intro idxs
  induction idxs with
  | nil => intro acc _; simp
  | cons a rest ih =>
    intro acc hnodup
    rw [List.nodup_cons] at hnodup
    rw [List.foldl_cons, ih _ hnodup.2]
    cases hg : acc.1.hints[a]? with
    | none =>
      have hstep : mivStep viewport acc a = acc := by
        unfold mivStep
        rw [hg]
      rw [hstep]
      simp [List.any_cons, hg]
    | some h =>
      have hstep2 : (mivStep viewport acc a).2
          = (acc.2 || crossesViewport viewport (hintRect viewport h)) := by
        unfold mivStep
        rw [hg]
      have hcong : rest.any (fun i =>
            match (mivStep viewport acc a).1.hints[i]? with
            | some h => crossesViewport viewport (hintRect viewport h)
            | none => false)
          = rest.any (fun i =>
            match acc.1.hints[i]? with
            | some h => crossesViewport viewport (hintRect viewport h)
            | none => false) := by
        refine list_any_congr ?_
        intro j hj
        rw [mivStep_frame_getElem viewport acc a j
          (fun he => hnodup.1 (he ▸ hj))]
      rw [hcong, hstep2]
      simp [List.any_cons, hg, Bool.or_assoc]

/-- C2 (amended): over nodes that enter the pass right/top positioned,
free of margin overrides and no larger than the viewport, a
moveInsideViewport pass leaves uncrossed nodes untouched (hence without
margin overrides), pulls every corrected edge back to within half a
pixel of the crossed viewport bound (Math.round may leave up to half a
pixel of residue, so the bound itself is not always reattained), and
returns true exactly when at least one processed node crossed a
boundary. -/
theorem moveInsideViewport_amended (viewport : Viewport) (s : RState)
    (idxs : List ℕ) (hnodup : idxs.Nodup)
    (hgood : ∀ i ∈ idxs, ∀ h : Hint, s.hints[i]? = some h →
      h.posLeft = none ∧ h.posRight ≠ none ∧ h.marginRight = none ∧
      h.marginTop = none ∧ h.width ≤ viewport.width ∧
      h.height ≤ viewport.height) :
    (∀ i ∈ idxs, ∀ h : Hint, s.hints[i]? = some h →
      ∃ h', (moveInsideViewport viewport s idxs).1.hints[i]? = some h' ∧
        (crossesViewport viewport (hintRect viewport h) = false →
          h' = h) ∧
        ((hintRect viewport h).left < 0 →
          -(1/2 : ℚ) ≤ (hintRect viewport h').left) ∧
        ((hintRect viewport h).right > viewport.width →
          (hintRect viewport h').right ≤ viewport.width + 1/2) ∧
        ((hintRect viewport h).top < 0 →
          -(1/2 : ℚ) ≤ (hintRect viewport h').top) ∧
        ((hintRect viewport h).bottom > viewport.height →
          (hintRect viewport h').bottom ≤ viewport.height + 1/2)) ∧
    ((moveInsideViewport viewport s idxs).2 = true ↔
      ∃ i ∈ idxs, ∃ h : Hint, s.hints[i]? = some h ∧
        crossesViewport viewport (hintRect viewport h) = true) := by
  constructor
  · intro i hi h hh
    obtain ⟨hpl, hprne, hmr, hmt, hwv, hhv⟩ := hgood i hi h hh
    obtain ⟨r, hpr⟩ := Option.ne_none_iff_exists'.mp hprne
    have hspec := correctHint_spec viewport h r hpl hpr hmr hmt hwv hhv
    exact ⟨correctHint viewport h (hintRect viewport h),
      foldl_mivStep_point viewport idxs (s, false) i hnodup hi h hh,
      hspec.1, hspec.2.1, hspec.2.2.1, hspec.2.2.2.1, hspec.2.2.2.2⟩
  · unfold moveInsideViewport
    rw [foldl_mivStep_moved viewport idxs (s, false) hnodup]
    simp only [Bool.false_or]
    rw [List.any_eq_true]
    constructor
    · rintro ⟨i, hi, hf⟩
      cases hg : (s, false).1.hints[i]? with
      | none => rw [hg] at hf; simp at hf
      | some h =>
        rw [hg] at hf
        exact ⟨i, hi, h, hg, hf⟩
    · rintro ⟨i, hi, h, hg, hf⟩
      refine ⟨i, hi, ?_⟩
      have hg' : (s, false).1.hints[i]? = some h := hg
      rw [hg']
      exact hf

/-- A right-positioned hint whose laid-out width is fractional, as font
metrics routinely produce. -/
def fractionalHint : Hint :=
  { id := 0, label := "a", posLeft := none, posRight := some 91,
    posTop := 50, z := 100, hiddenClass := false, highlightedClass := false,
    matchedChars := "", restChars := "a", marginRight := none,
    marginTop := none, width := 47/5, height := 10 }

/-- A state holding the single fractional hint. -/
def fractionalState : RState := { initState with hints := [fractionalHint] }

/-- C2 counterexample: the node's rectangle crosses the left viewport
boundary by 0.4 px; Math.round turns the corrective margin into 0 px, so
after the call the rectangle still exceeds the viewport bound on the
corrected edge (the claim demands it no longer does). -/
theorem moveInsideViewport_rounding_counterexample :
    (hintRect ⟨100, 100⟩ fractionalHint).left < 0 ∧
    (moveInsideViewport ⟨100, 100⟩ fractionalState [0]).2 = true ∧
    ∃ h', (moveInsideViewport ⟨100, 100⟩ fractionalState
        [0]).1.hints[0]? = some h' ∧
      (hintRect ⟨100, 100⟩ h').left < 0 := by
  refine ⟨by norm_num [hintRect, fractionalHint], ?_, ?_⟩
  · norm_num [moveInsideViewport, mivStep, fractionalState, fractionalHint,
      initState, hintRect, crossesViewport, correctHint, jsRound]
  · refine ⟨correctHint ⟨100, 100⟩ fractionalHint
      (hintRect ⟨100, 100⟩ fractionalHint), ?_, ?_⟩
    · norm_num [moveInsideViewport, mivStep, fractionalState, fractionalHint,
        initState]
    · norm_num [hintRect, correctHint, fractionalHint, jsRound,
        Int.floor_eq_iff]

/-- A right-positioned hint protruding past the right viewport edge. -/
def protrudingHint : Hint :=
  { id := 0, label := "a", posLeft := none, posRight := some (-5),
    posTop := 50, z := 100, hiddenClass := false, highlightedClass := false,
    matchedChars := "", restChars := "a", marginRight := none,
    marginTop := none, width := 10, height := 10 }

/-- A state holding the single protruding hint. -/
def protrudingState : RState := { initState with hints := [protrudingHint] }

/-- Witness for the amended moveInsideViewport behaviour: the hint
crossing the right boundary is corrected to within half a pixel of it. -/
theorem moveInsideViewport_amended_witness :
    ∃ h', (moveInsideViewport ⟨100, 100⟩ protrudingState
        [0]).1.hints[0]? = some h' ∧
      (hintRect ⟨100, 100⟩ h').right ≤ 100 + 1/2 := by
  have hgood : ∀ i ∈ [0], ∀ h : Hint,
      protrudingState.hints[i]? = some h →
      h.posLeft = none ∧ h.posRight ≠ none ∧ h.marginRight = none ∧
      h.marginTop = none ∧ h.width ≤ (100 : ℚ) ∧ h.height ≤ (100 : ℚ) := by
    intro i hi h hh
    simp only [List.mem_singleton] at hi
    subst hi
    have heq : protrudingHint = h := by
      simpa [protrudingState, initState] using hh
    subst heq
    refine ⟨rfl, by simp [protrudingHint], rfl, rfl, by norm_num
      [protrudingHint], by norm_num [protrudingHint]⟩
  have hmain := (moveInsideViewport_amended ⟨100, 100⟩ protrudingState [0]
    (by simp) hgood).1 0 (by simp) protrudingHint rfl
  obtain ⟨h', hsome, _, _, hright, _, _⟩ := hmain
  refine ⟨h', hsome, hright ?_⟩
  norm_num [hintRect, protrudingHint]

/-- Witness for C1 at a concrete two-element render. -/
theorem render_hint_count_and_zindexes_witness :
    (render ⟨100, 100⟩ ⟨0, 0, 10, 12⟩ ⟨0, 0, 16, 12⟩ 12 true initState
        [⟨⟨10, 20, Alignment.left, 50⟩, "ab"⟩,
         ⟨⟨90, 30, Alignment.right, 95⟩, "c"⟩]).hints.length = 2 ∧
    ∃ a b,
      (render ⟨100, 100⟩ ⟨0, 0, 10, 12⟩ ⟨0, 0, 16, 12⟩ 12 true initState
          [⟨⟨10, 20, Alignment.left, 50⟩, "ab"⟩,
           ⟨⟨90, 30, Alignment.right, 95⟩, "c"⟩]).hints[0]? = some a ∧
      (render ⟨100, 100⟩ ⟨0, 0, 10, 12⟩ ⟨0, 0, 16, 12⟩ 12 true initState
          [⟨⟨10, 20, Alignment.left, 50⟩, "ab"⟩,
           ⟨⟨90, 30, Alignment.right, 95⟩, "c"⟩]).hints[1]? = some b ∧
      b.z < a.z := by
  have h := render_hint_count_and_zindexes ⟨100, 100⟩ ⟨0, 0, 10, 12⟩
    ⟨0, 0, 16, 12⟩ 12 initState
    [⟨⟨10, 20, Alignment.left, 50⟩, "ab"⟩,
     ⟨⟨90, 30, Alignment.right, 95⟩, "c"⟩]
  have hlen : (render ⟨100, 100⟩ ⟨0, 0, 10, 12⟩ ⟨0, 0, 16, 12⟩ 12 true
      initState [⟨⟨10, 20, Alignment.left, 50⟩, "ab"⟩,
        ⟨⟨90, 30, Alignment.right, 95⟩, "c"⟩]).hints.length = 2 := h.1
  have hi : 0 < (render ⟨100, 100⟩ ⟨0, 0, 10, 12⟩ ⟨0, 0, 16, 12⟩ 12 true
      initState [⟨⟨10, 20, Alignment.left, 50⟩, "ab"⟩,
        ⟨⟨90, 30, Alignment.right, 95⟩, "c"⟩]).hints.length := by
    rw [hlen]; omega
  have hj : 1 < (render ⟨100, 100⟩ ⟨0, 0, 10, 12⟩ ⟨0, 0, 16, 12⟩ 12 true
      initState [⟨⟨10, 20, Alignment.left, 50⟩, "ab"⟩,
        ⟨⟨90, 30, Alignment.right, 95⟩, "c"⟩]).hints.length := by
    rw [hlen]; omega
  refine ⟨hlen, _, _, List.getElem?_eq_getElem hi,
    List.getElem?_eq_getElem hj, ?_⟩
  exact h.2.1 0 1 hi hj (by omega)

/-! ### Claim C7: the rectangle cache -/

theorem mivStep_id_at (viewport : Viewport) (acc : RState × Bool)
    (a j : ℕ) :
    ((mivStep viewport acc a).1.hints[j]?).map Hint.id
      = (acc.1.hints[j]?).map Hint.id := by
  by_cases hja : j = a
  · subst hja
    unfold mivStep
    cases hg : acc.1.hints[j]? with
    | none => rw [hg]
    | some h =>
      have hlt : j < acc.1.hints.length := by
        by_contra hc
        rw [List.getElem?_eq_none (by omega)] at hg
        exact Option.noConfusion hg
      simp [List.getElem?_set, hlt, hg, correctHint_id]
  · rw [mivStep_frame_getElem viewport acc a j hja]

theorem hints_ids_ne {l : List Hint} (hids : (l.map Hint.id).Nodup)
    {i j : ℕ} {a b : Hint} (hne : i ≠ j) (ha : l[i]? = some a)
    (hb : l[j]? = some b) : a.id ≠ b.id := by
  have hi : i < l.length := by
    by_contra hc
    rw [List.getElem?_eq_none (by omega)] at ha
    exact Option.noConfusion ha
  have hj : j < l.length := by
    by_contra hc
    rw [List.getElem?_eq_none (by omega)] at hb
    exact Option.noConfusion hb
  have ha' : a = l.get ⟨i, hi⟩ := by
    rw [List.getElem?_eq_getElem hi] at ha
    exact (Option.some.injEq _ _ ▸ ha).symm
  have hb' : b = l.get ⟨j, hj⟩ := by
    rw [List.getElem?_eq_getElem hj] at hb
    exact (Option.some.injEq _ _ ▸ hb).symm
  intro hab
  have hinj := List.nodup_iff_injective_get.mp hids
  have hmi : i < (l.map Hint.id).length := by simpa using hi
  have hmj : j < (l.map Hint.id).length := by simpa using hj
  have : (l.map Hint.id).get ⟨i, hmi⟩ = (l.map Hint.id).get ⟨j, hmj⟩ := by
    rw [List.get_map, List.get_map]
    rw [ha'] at hab
    rw [hb'] at hab
    exact hab
  have := hinj this
  simp only [Fin.mk.injEq] at this
  exact hne this

theorem foldl_mivStep_cache_frame (viewport : Viewport) :
    ∀ (idxs : List ℕ) (acc : RState × Bool) (id0 : ℕ),
      (∀ j ∈ idxs, ∀ h' : Hint, acc.1.hints[j]? = some h' →
        h'.id ≠ id0) →
      List.lookup id0 (idxs.foldl (mivStep viewport) acc).1.rects
        = List.lookup id0 acc.1.rects := by
  intro idxs
  induction idxs with
  | nil => intro acc id0 _; rfl
  | cons a rest ih =>
    intro acc id0 hid
    rw [List.foldl_cons]
    have hrest : ∀ j ∈ rest, ∀ h' : Hint,
        (mivStep viewport acc a).1.hints[j]? = some h' → h'.id ≠ id0 := by
      intro j hj h' hh'
      have hmap := mivStep_id_at viewport acc a j
      rw [hh'] at hmap
      cases hg : acc.1.hints[j]? with
      | none => rw [hg] at hmap; simp at hmap
      | some h'' =>
        rw [hg] at hmap
        have hmap' : h'.id = h''.id := by simpa using hmap
        rw [hmap']
        exact hid j (by simp [hj]) h'' hg
    rw [ih _ id0 hrest]
    unfold mivStep
    cases hg : acc.1.hints[a]? with
    | none => rfl
    | some h =>
      have hne : (id0 == h.id) = false :=
        beq_eq_false_iff_ne.mpr (Ne.symm (hid a (by simp) h hg))
      simp [List.lookup_cons, hne]

theorem foldl_mivStep_cache (viewport : Viewport) :
    ∀ (idxs : List ℕ) (acc : RState × Bool), idxs.Nodup →
      (acc.1.hints.map Hint.id).Nodup →
      ∀ i ∈ idxs, ∀ h : Hint, acc.1.hints[i]? = some h →
      List.lookup h.id (idxs.foldl (mivStep viewport) acc).1.rects
        = some (hintRect viewport h) := by
  intro idxs
  induction idxs with
  | nil => intro acc _ _ i hi; simp at hi
  | cons a rest ih =>
    intro acc hnodup hids i hi h hh
    rw [List.nodup_cons] at hnodup
    rw [List.foldl_cons]
    rcases List.mem_cons.mp hi with rfl | hmem
    · have hrest : ∀ j ∈ rest, ∀ h' : Hint,
          (mivStep viewport acc i).1.hints[j]? = some h' →
          h'.id ≠ h.id := by
        intro j hj h' hh'
        have hji : j ≠ i := fun he => hnodup.1 (he ▸ hj)
        rw [mivStep_frame_getElem viewport acc i j hji] at hh'
        exact hints_ids_ne hids hji hh' hh
      rw [foldl_mivStep_cache_frame viewport rest _ h.id hrest]
      have hrects : (mivStep viewport acc i).1.rects
          = (h.id, hintRect viewport h) :: acc.1.rects := by
        unfold mivStep
        rw [hh]
      rw [hrects]
      simp [List.lookup_cons]
    · have hne : i ≠ a := fun he => hnodup.1 (he ▸ hmem)
      refine ih _ hnodup.2 ?_ i hmem h ?_
      · have hmap := foldl_mivStep_hints_map viewport Hint.id
          (correctHint_id viewport) [a] acc
        rw [List.foldl_cons, List.foldl_nil] at hmap
        rw [hmap]
        exact hids
      · rw [mivStep_frame_getElem viewport acc a i hne]
        exact hh

/-- C7: a moveInsideViewport pass stores, for every node it visits,
exactly the rectangle measured for that node during the pass in the
rectangle cache; overlap rotation never writes the cache; and when a
rectangle is absent from the cache, the overlap resolver's rectFor falls
back to the live measurement, so grouping never depends on the cache
being populated. -/
theorem rectCache_discipline :
    (∀ (viewport : Viewport) (s : RState) (idxs : List ℕ),
      idxs.Nodup → (s.hints.map Hint.id).Nodup →
      ∀ i ∈ idxs, ∀ h : Hint, s.hints[i]? = some h →
      List.lookup h.id (moveInsideViewport viewport s idxs).1.rects
        = some (hintRect viewport h)) ∧
    (∀ (viewport : Viewport) (forward : Bool) (s : RState),
      (rotateHints viewport forward s).rects = s.rects) ∧
    (∀ (rects : RectCache) (e : HintElem),
      List.lookup e.id rects = none → rectFor rects e = e.liveRect) := by
  refine ⟨?_, ?_, ?_⟩
  · intro vp s idxs h1 h2 i hi h hh
    exact foldl_mivStep_cache vp idxs (s, false) h1 h2 i hi h hh
  · intro vp fwd s
    rfl
  · intro rects e hnone
    unfold rectFor
    rw [hnone]

/-- Witness for the cache discipline at a concrete pass and a concrete
cache miss. -/
theorem rectCache_discipline_witness :
    List.lookup protrudingHint.id
        (moveInsideViewport ⟨100, 100⟩ protrudingState [0]).1.rects
      = some (hintRect ⟨100, 100⟩ protrudingHint) ∧
    rectFor [] ⟨5, ⟨1, 2, 3, 4⟩⟩ = ⟨1, 2, 3, 4⟩ :=
  ⟨rectCache_discipline.1 ⟨100, 100⟩ protrudingState [0] (by simp)
      (by decide) 0 (by simp) protrudingHint rfl,
   rectCache_discipline.2.2 [] ⟨5, ⟨1, 2, 3, 4⟩⟩ rfl⟩

/-! ### Claim C3: rotation of overlap stacks -/

theorem stackGo_succ_lt_pos (rects : RectCache) (fuel : ℕ) (e : HintElem)
    (l : List HintElem) (i : ℕ) (h : i < l.length)
    (hov : overlaps (rectFor rects (l.get ⟨i, h⟩)) (rectFor rects e)
      = true) :
    stackGo rects (fuel+1) e l i
      = (l.get ⟨i, h⟩
            :: (stackGo rects fuel (l.get ⟨i, h⟩) (l.eraseIdx i) 0).1
            ++ (stackGo rects fuel e
                (stackGo rects fuel (l.get ⟨i, h⟩) (l.eraseIdx i) 0).2 i).1,
         (stackGo rects fuel e
             (stackGo rects fuel (l.get ⟨i, h⟩) (l.eraseIdx i) 0).2 i).2) := by
  simp only [stackGo]
  rw [dif_pos h, if_pos hov]

theorem stackGo_succ_lt_neg (rects : RectCache) (fuel : ℕ) (e : HintElem)
    (l : List HintElem) (i : ℕ) (h : i < l.length)
    (hov : ¬ overlaps (rectFor rects (l.get ⟨i, h⟩)) (rectFor rects e)
      = true) :
    stackGo rects (fuel+1) e l i = stackGo rects fuel e l (i+1) := by
  simp only [stackGo]
  rw [dif_pos h, if_neg hov]

theorem stackGo_succ_ge (rects : RectCache) (fuel : ℕ) (e : HintElem)
    (l : List HintElem) (i : ℕ) (h : ¬ i < l.length) :
    stackGo rects (fuel+1) e l i = ([], l) := by
  simp only [stackGo]
  rw [dif_neg h]

/-- The elements collected into a stack plus the leftover list are a
permutation of the scanned list. -/
theorem stackGo_perm (rects : RectCache) :
    ∀ (fuel : ℕ) (e : HintElem) (l : List HintElem) (i : ℕ),
      ((stackGo rects fuel e l i).1
        ++ (stackGo rects fuel e l i).2).Perm l := by
  intro fuel
  induction fuel with
  | zero => intro e l i; simp [stackGo]
  | succ fuel ih =>
    intro e l i
    by_cases h : i < l.length
    · by_cases hov : overlaps (rectFor rects (l.get ⟨i, h⟩))
          (rectFor rects e) = true
      · rw [stackGo_succ_lt_pos rects fuel e l i h hov]
        have ihp := ih (l.get ⟨i, h⟩) (l.eraseIdx i) 0
        have ihq := ih e
          (stackGo rects fuel (l.get ⟨i, h⟩) (l.eraseIdx i) 0).2 i
        refine List.Perm.trans ?_ (perm_get_cons_eraseIdx l i h).symm
        simp only [List.cons_append, List.append_assoc]
        refine List.Perm.cons _ ?_
        exact List.Perm.trans (List.Perm.append_left _ ihq) ihp
      · rw [stackGo_succ_lt_neg rects fuel e l i h hov]
        exact ih e l (i+1)
    · rw [stackGo_succ_ge rects fuel e l i h]
      simp
  
theorem getStackFor_perm (rects : RectCache) (e : HintElem)
    (l : List HintElem) :
    ((getStackFor rects e l).1 ++ (getStackFor rects e l).2).Perm
      (e :: l) := by
  unfold getStackFor
  simpa using (stackGo_perm rects (stackFuel l.length) e l 0).cons e

theorem getStackFor_rem_length (rects : RectCache) (e : HintElem)
    (l : List HintElem) :
    (getStackFor rects e l).2.length ≤ l.length := by
  show (stackGo rects (stackFuel l.length) e l 0).2.length ≤ l.length
  have hp := (stackGo_perm rects (stackFuel l.length) e l 0).length_eq
  rw [List.length_append] at hp
  omega

theorem getStacksAux_succ_cons (rects : RectCache) (fuel : ℕ)
    (e : HintElem) (es : List HintElem) :
    getStacksAux rects (fuel+1) (e :: es)
      = (getStackFor rects ((e :: es).getLast (List.cons_ne_nil e es))
            ((e :: es).dropLast)).1
        :: getStacksAux rects fuel
            (getStackFor rects ((e :: es).getLast (List.cons_ne_nil e es))
              ((e :: es).dropLast)).2 := by
  simp only [getStacksAux]

/-- The stacks found by getStacks partition the hint elements. -/
theorem getStacksAux_flatten_perm (rects : RectCache) :
    ∀ (fuel : ℕ) (l : List HintElem), l.length ≤ fuel →
      ((getStacksAux rects fuel l).flatten).Perm l := by
  intro fuel
  induction fuel with
  | zero =>
    intro l hl
    have : l = [] := List.eq_nil_of_length_eq_zero (Nat.le_zero.mp hl)
    subst this
    simp [getStacksAux]
  | succ fuel ih =>
    intro l hl
    cases l with
    | nil => simp [getStacksAux]
    | cons e es =>
      rw [getStacksAux_succ_cons]
      rw [List.flatten_cons]
      have hrem : (getStackFor rects
          ((e :: es).getLast (List.cons_ne_nil e es))
          ((e :: es).dropLast)).2.length ≤ fuel := by
        have h1 := getStackFor_rem_length rects
          ((e :: es).getLast (List.cons_ne_nil e es)) ((e :: es).dropLast)
        have h2 : (e :: es).dropLast.length = es.length := by
          simp
        simp only [List.length_cons] at hl
        omega
      have hih := ih _ hrem
      refine List.Perm.trans (List.Perm.append_left _ hih) ?_
      refine List.Perm.trans (getStackFor_perm rects _ _) ?_
      have hsplit := List.dropLast_append_getLast (List.cons_ne_nil e es)
      have h1 := List.perm_append_singleton
        ((e :: es).getLast (List.cons_ne_nil e es)) ((e :: es).dropLast)
      refine List.Perm.trans h1.symm ?_
      rw [hsplit]

theorem getStacks_flatten_perm (rects : RectCache) (l : List HintElem) :
    ((getStacks rects l).flatten).Perm l :=
  getStacksAux_flatten_perm rects l.length l le_rfl

theorem mem_of_mem_getStacks (rects : RectCache) (l : List HintElem)
    {S : List HintElem} (hS : S ∈ getStacks rects l) :
    ∀ x ∈ S, x ∈ l := by
  intro x hx
  exact (getStacks_flatten_perm rects l).subset
    ((List.sublist_join hS).subset hx)

theorem zOfId_spec (hints : List Hint) (i : ℕ)
    (hpres : i ∈ hints.map Hint.id) :
    ∃ h ∈ hints, h.id = i ∧ zOfId hints i = h.z := by
  unfold zOfId
  obtain ⟨h0, hmem, hid⟩ := List.mem_map.mp hpres
  have hsome : (hints.find? (fun h => h.id == i)).isSome := by
    rw [List.find?_isSome]
    exact ⟨h0, hmem, by simp [hid]⟩
  obtain ⟨h1, hf⟩ := Option.isSome_iff_exists.mp hsome
  refine ⟨h1, List.mem_of_find?_eq_some hf, ?_, ?_⟩
  · have := List.find?_some hf
    simpa using this
  · rw [hf]

theorem zOfId_inj (hints : List Hint)
    (hz : (hints.map Hint.z).Nodup) (i j : ℕ)
    (hi : i ∈ hints.map Hint.id) (hj : j ∈ hints.map Hint.id)
    (hne : i ≠ j) : zOfId hints i ≠ zOfId hints j := by
  obtain ⟨hi0, hmi, hidi, hzi⟩ := zOfId_spec hints i hi
  obtain ⟨hj0, hmj, hidj, hzj⟩ := zOfId_spec hints j hj
  rw [hzi, hzj]
  have hdiff : hi0 ≠ hj0 := by
    intro hcontra
    exact hne (hidi ▸ hidj ▸ congrArg Hint.id hcontra)
  exact nodup_map_ne Hint.z hz hmi hmj hdiff

theorem setZ_id_map (hints : List Hint) (i : ℕ) (z : ℤ) :
    (setZ hints i z).map Hint.id = hints.map Hint.id := by
  simp only [setZ, List.map_map]
  refine List.map_congr_left ?_
  intro h _
  by_cases hh : h.id = i <;> simp [hh]

theorem zOfId_setZ_ne (hints : List Hint) (i : ℕ) (z : ℤ) (j : ℕ)
    (hne : j ≠ i) : zOfId (setZ hints i z) j = zOfId hints j := by
  unfold zOfId setZ
  induction hints with
  | nil => rfl
  | cons h t ih =>
    simp only [List.map_cons, List.find?_cons]
    have hij : ¬ i = j := fun hc => hne hc.symm
    by_cases hhi : h.id = i
    · have hp1 : ((if h.id = i then { h with z := z } else h).id == j)
          = false := by
        rw [if_pos hhi]
        simp [hhi, hij]
      have hp2 : (h.id == j) = false := by
        simp [hhi, hij]
      rw [hp1, hp2]
      exact ih
    · rw [if_neg hhi]
      by_cases hhj : h.id = j
      · simp [hhj]
      · have hp : (h.id == j) = false := by simp [hhj]
        rw [hp]
        exact ih

theorem zOfId_setZ_eq (hints : List Hint) (i : ℕ) (z : ℤ)
    (hpres : i ∈ hints.map Hint.id) :
    zOfId (setZ hints i z) i = z := by
  unfold zOfId setZ
  induction hints with
  | nil => simp at hpres
  | cons h t ih =>
    simp only [List.map_cons, List.find?_cons]
    by_cases hhi : h.id = i
    · simp [hhi]
    · rw [if_neg hhi]
      have hp : (h.id == i) = false := by simp [hhi]
      rw [hp]
      refine ih ?_
      rcases List.mem_cons.mp
          (by simpa only [List.map_cons] using hpres) with hc | hc
      · exact absurd hc.symm hhi
      · exact hc

theorem foldl_setZ_id_map (pairs : List (HintElem × ℤ)) :
    ∀ (hints : List Hint),
      ((pairs.foldl (fun acc p => setZ acc p.1.id p.2) hints).map Hint.id)
        = hints.map Hint.id := by
  induction pairs with
  | nil => intro hints; rfl
  | cons q rest ih =>
    intro hints
    rw [List.foldl_cons, ih, setZ_id_map]

theorem foldl_setZ_miss (pairs : List (HintElem × ℤ)) :
    ∀ (hints : List Hint) (j : ℕ), (∀ p ∈ pairs, p.1.id ≠ j) →
      zOfId (pairs.foldl (fun acc p => setZ acc p.1.id p.2) hints) j
        = zOfId hints j := by
  induction pairs with
  | nil => intro hints j _; rfl
  | cons q rest ih =>
    intro hints j hmiss
    rw [List.foldl_cons,
      ih _ j (fun p hp => hmiss p (List.mem_cons_of_mem q hp)),
      zOfId_setZ_ne _ _ _ _ (fun hc => hmiss q (List.mem_cons_self q rest)
        hc.symm)]

theorem foldl_setZ_hit (pairs : List (HintElem × ℤ)) :
    ∀ (hints : List Hint) (p0 : HintElem × ℤ),
      (pairs.map (fun p => p.1.id)).Nodup → p0 ∈ pairs →
      p0.1.id ∈ hints.map Hint.id →
      zOfId (pairs.foldl (fun acc p => setZ acc p.1.id p.2) hints) p0.1.id
        = p0.2 := by
  induction pairs with
  | nil => intro hints p0 _ hmem; simp at hmem
  | cons q rest ih =>
    intro hints p0 hnd hmem hpres
    rw [List.map_cons, List.nodup_cons] at hnd
    rw [List.foldl_cons]
    rcases List.mem_cons.mp hmem with hq | hrest
    · subst hq
      rw [foldl_setZ_miss rest _ p0.1.id ?_,
        zOfId_setZ_eq _ _ _ hpres]
      intro p hp hc
      exact hnd.1 (hc ▸ List.mem_map_of_mem (fun p => p.1.id) hp)
    · refine ih _ p0 hnd.2 hrest ?_
      rw [setZ_id_map]
      exact hpres

def stackRel (hints : List Hint) (sign : ℤ) (a b : HintElem) : Prop :=
  (zOfId hints a.id - zOfId hints b.id) * sign ≤ 0

instance stackRelDec (hints : List Hint) (sign : ℤ) :
    DecidableRel (stackRel hints sign) :=
  fun a b => inferInstanceAs
    (Decidable ((zOfId hints a.id - zOfId hints b.id) * sign ≤ 0))

/-- The ascending reordering of a stack that rotateHints computes before
reassigning z-indexes. -/
def sortedStack (hints : List Hint) (sign : ℤ) (S : List HintElem) :
    List HintElem :=
  List.insertionSort (stackRel hints sign) S

theorem stackRel_one (hints : List Hint) (a b : HintElem) :
    stackRel hints 1 a b ↔ zOfId hints a.id ≤ zOfId hints b.id := by
  unfold stackRel
  rw [mul_one, sub_nonpos]

theorem orderedInsert_congr {α : Type} (r1 r2 : α → α → Prop)
    [DecidableRel r1] [DecidableRel r2] (a : α) :
    ∀ (l : List α), (∀ b ∈ l, r1 a b ↔ r2 a b) →
      List.orderedInsert r1 a l = List.orderedInsert r2 a l := by
  intro l
  induction l with
  | nil => intro _; rfl
  | cons b t ih =>
    intro hcong
    simp only [List.orderedInsert]
    by_cases h : r1 a b
    · rw [if_pos h, if_pos ((hcong b (List.mem_cons_self b t)).mp h)]
    · rw [if_neg h,
        if_neg (fun h2 => h ((hcong b (List.mem_cons_self b t)).mpr h2)),
        ih (fun c hc => hcong c (List.mem_cons_of_mem b hc))]

theorem insertionSort_congr {α : Type} (r1 r2 : α → α → Prop)
    [DecidableRel r1] [DecidableRel r2] :
    ∀ (l : List α), (∀ a ∈ l, ∀ b ∈ l, r1 a b ↔ r2 a b) →
      List.insertionSort r1 l = List.insertionSort r2 l := by
  intro l
  induction l with
  | nil => intro _; rfl
  | cons a t ih =>
    intro hcong
    simp only [List.insertionSort]
    rw [ih (fun x hx y hy => hcong x (List.mem_cons_of_mem a hx) y
      (List.mem_cons_of_mem a hy))]
    refine orderedInsert_congr r1 r2 a _ ?_
    intro b hb
    have hbt : b ∈ t := (List.perm_insertionSort r2 t).subset hb
    exact hcong a (List.mem_cons_self a t) b (List.mem_cons_of_mem a hbt)

theorem applyStack_eq (sign : ℤ) (hints : List Hint) (S : List HintElem) :
    applyStack sign hints S
      = if 2 ≤ S.length then
          ((sortedStack hints sign S).zip
              (((sortedStack hints sign S).map
                (fun e => zOfId hints e.id)).rotate 1)).foldl
            (fun acc p => setZ acc p.1.id p.2) hints
        else hints := rfl

theorem applyStack_id_map (sign : ℤ) (hints : List Hint)
    (S : List HintElem) :
    (applyStack sign hints S).map Hint.id = hints.map Hint.id := by
  rw [applyStack_eq]
  split
  · rw [foldl_setZ_id_map]
  · rfl

theorem applyStack_not_mem (sign : ℤ) (hints : List Hint)
    (S : List HintElem) (j : ℕ) (hj : j ∉ S.map HintElem.id) :
    zOfId (applyStack sign hints S) j = zOfId hints j := by
  rw [applyStack_eq]
  split
  · refine foldl_setZ_miss _ _ _ ?_
    intro p hp hc
    apply hj
    have hmem := (List.mem_zip hp).1
    have hpS : p.1 ∈ S :=
      (List.perm_insertionSort (stackRel hints sign) S).subset hmem
    exact hc ▸ List.mem_map_of_mem HintElem.id hpS
  · rfl

theorem sortedStack_length (hints : List Hint) (sign : ℤ)
    (S : List HintElem) : (sortedStack hints sign S).length = S.length :=
  (List.perm_insertionSort (stackRel hints sign) S).length_eq

theorem mem_sortedStack (hints : List Hint) (sign : ℤ)
    (S : List HintElem) (x : HintElem) :
    x ∈ sortedStack hints sign S ↔ x ∈ S :=
  (List.perm_insertionSort (stackRel hints sign) S).mem_iff

/-- After processing one stack, each element of the sorted stack holds the
z-index previously held by its successor: the key list rotates by one. -/
theorem applyStack_assign (sign : ℤ) (hints : List Hint)
    (S : List HintElem) (hk : 2 ≤ S.length)
    (hSid : (S.map HintElem.id).Nodup)
    (hpres : ∀ x ∈ S, x.id ∈ hints.map Hint.id) :
    (sortedStack hints sign S).map
        (fun e => zOfId (applyStack sign hints S) e.id)
      = ((sortedStack hints sign S).map
          (fun e => zOfId hints e.id)).rotate 1 := by
  have hlen : (((sortedStack hints sign S).map
      (fun e => zOfId hints e.id)).rotate 1).length
      = (sortedStack hints sign S).length := by
    rw [List.length_rotate, List.length_map]
  have hziplen : (sortedStack hints sign S).length
      ≤ (((sortedStack hints sign S).map
          (fun e => zOfId hints e.id)).rotate 1).length := le_of_eq hlen.symm
  have hpairsid : ((((sortedStack hints sign S).zip
      (((sortedStack hints sign S).map
        (fun e => zOfId hints e.id)).rotate 1)).map
        (fun p => p.1.id))).Nodup := by
    have hfst : ((sortedStack hints sign S).zip
        (((sortedStack hints sign S).map
          (fun e => zOfId hints e.id)).rotate 1)).map Prod.fst
        = sortedStack hints sign S := List.map_fst_zip _ _ hziplen
    have : (((sortedStack hints sign S).zip
        (((sortedStack hints sign S).map
          (fun e => zOfId hints e.id)).rotate 1)).map
          (fun p => p.1.id))
        = (sortedStack hints sign S).map HintElem.id := by
      rw [show (fun p : HintElem × ℤ => p.1.id)
          = (HintElem.id ∘ Prod.fst) from rfl, ← List.map_map, hfst]
    rw [this]
    exact (((List.perm_insertionSort (stackRel hints sign) S).map
      HintElem.id).nodup_iff).mpr hSid
  rw [applyStack_eq, if_pos hk]
  apply List.ext_getElem
  · rw [List.length_map, hlen]
  · intro n h1 h2
    rw [List.length_map] at h1
    have hbound : n < (((sortedStack hints sign S).zip
        (((sortedStack hints sign S).map
          (fun e => zOfId hints e.id)).rotate 1))).length := by
      rw [List.length_zip]
      omega
    have hzip : (((sortedStack hints sign S).zip
        (((sortedStack hints sign S).map
          (fun e => zOfId hints e.id)).rotate 1)))[n]
        = ((sortedStack hints sign S)[n],
           ((((sortedStack hints sign S).map
             (fun e => zOfId hints e.id)).rotate 1))[n]) := by
      rw [List.getElem_zip]
    rw [List.getElem_map]
    have hhit := foldl_setZ_hit
      ((sortedStack hints sign S).zip
        (((sortedStack hints sign S).map
          (fun e => zOfId hints e.id)).rotate 1))
      hints
      ((sortedStack hints sign S)[n],
       ((((sortedStack hints sign S).map
         (fun e => zOfId hints e.id)).rotate 1))[n])
      hpairsid
      (hzip ▸ List.getElem_mem _)
      (hpres _ ((mem_sortedStack hints sign S _).mp
        (List.getElem_mem h1)))
    exact hhit

theorem sortedStack_congr (sign : ℤ) (h1 h2 : List Hint)
    (S : List HintElem)
    (hagree : ∀ x ∈ S, zOfId h1 x.id = zOfId h2 x.id) :
    sortedStack h1 sign S = sortedStack h2 sign S := by
  unfold sortedStack
  refine insertionSort_congr _ _ S ?_
  intro a ha b hb
  unfold stackRel
  rw [hagree a ha, hagree b hb]

/-- applyStack reads only the z-indexes of the ids in its stack: two hint
lists agreeing there are updated consistently on those ids. -/
theorem applyStack_congr (sign : ℤ) (h1 h2 : List Hint)
    (S : List HintElem)
    (hagree : ∀ x ∈ S, zOfId h1 x.id = zOfId h2 x.id)
    (hSid : (S.map HintElem.id).Nodup)
    (hpres1 : ∀ x ∈ S, x.id ∈ h1.map Hint.id)
    (hpres2 : ∀ x ∈ S, x.id ∈ h2.map Hint.id) :
    ∀ j ∈ S.map HintElem.id,
      zOfId (applyStack sign h1 S) j = zOfId (applyStack sign h2 S) j := by
  intro j hj
  obtain ⟨x, hx, hxid⟩ := List.mem_map.mp hj
  by_cases hk : 2 ≤ S.length
  · have hs12 : sortedStack h1 sign S = sortedStack h2 sign S :=
      sortedStack_congr sign h1 h2 S hagree
    have ha1 := applyStack_assign sign h1 S hk hSid hpres1
    have ha2 := applyStack_assign sign h2 S hk hSid hpres2
    have hxs : x ∈ sortedStack h1 sign S :=
      (mem_sortedStack h1 sign S x).mpr hx
    obtain ⟨n, hn, hget⟩ := List.getElem_of_mem hxs
    have key : ((sortedStack h1 sign S).map (fun e => zOfId h1 e.id))
        = ((sortedStack h2 sign S).map (fun e => zOfId h2 e.id)) := by
      rw [← hs12]
      exact List.map_congr_left (fun a ha =>
        hagree a ((mem_sortedStack h1 sign S a).mp ha))
    have e1 := congrArg (fun l => l[n]?) ha1
    have e2 := congrArg (fun l => l[n]?) ha2
    simp only [List.getElem?_map] at e1 e2
    have hx1 : (sortedStack h1 sign S)[n]? = some x := by
      rw [List.getElem?_eq_getElem hn, hget]
    have hx2 : (sortedStack h2 sign S)[n]? = some x := by
      rw [← hs12]
      exact hx1
    rw [hx1] at e1
    rw [hx2] at e2
    rw [key] at e1
    simp only [Option.map_some'] at e1 e2
    have := Option.some.inj (e1.trans e2.symm)
    rw [← hxid]
    exact this
  · rw [applyStack_eq sign h1 S, if_neg hk, applyStack_eq sign h2 S,
      if_neg hk]
    exact hxid ▸ hagree x hx

theorem foldl_applyStack_not_mem (sign : ℤ) :
    ∀ (L : List (List HintElem)) (hints : List Hint) (j : ℕ),
      (∀ U ∈ L, j ∉ U.map HintElem.id) →
      zOfId (L.foldl (applyStack sign) hints) j = zOfId hints j := by
  intro L
  induction L with
  | nil => intro hints j _; rfl
  | cons T L' ih =>
    intro hints j hmiss
    rw [List.foldl_cons,
      ih _ j (fun U hU => hmiss U (List.mem_cons_of_mem T hU)),
      applyStack_not_mem sign hints T j (hmiss T (List.mem_cons_self T L'))]

theorem foldl_applyStack_id_map (sign : ℤ) :
    ∀ (L : List (List HintElem)) (hints : List Hint),
      ((L.foldl (applyStack sign) hints).map Hint.id)
        = hints.map Hint.id := by
  intro L
  induction L with
  | nil => intro hints; rfl
  | cons T L' ih =>
    intro hints
    rw [List.foldl_cons, ih, applyStack_id_map]

/-- The pass over all stacks changes the z-index of an id in a given stack
exactly as the processing of that one stack alone would. -/
theorem foldl_applyStack_stack (sign : ℤ) :
    ∀ (L : List (List HintElem)) (hints : List Hint) (S : List HintElem),
      S ∈ L → ((L.flatten).map HintElem.id).Nodup →
      (∀ x ∈ L.flatten, x.id ∈ hints.map Hint.id) →
      ∀ j ∈ S.map HintElem.id,
        zOfId (L.foldl (applyStack sign) hints) j
          = zOfId (applyStack sign hints S) j := by
  intro L
  induction L with
  | nil => intro hints S hS; intro h; simp at hS
  | cons T L' ih =>
    intro hints S hS hnd hpres j hj
    rw [List.flatten_cons, List.map_append, List.nodup_append] at hnd
    obtain ⟨hndT, hndL', hdisj⟩ := hnd
    rw [List.foldl_cons]
    rcases List.mem_cons.mp hS with hTS | hSL'
    · subst hTS
      refine foldl_applyStack_not_mem sign L' _ j ?_
      intro U hU hjU
      obtain ⟨x, hx, hxid⟩ := List.mem_map.mp hjU
      refine hdisj hj ?_
      exact hxid ▸ List.mem_map_of_mem HintElem.id
        (List.mem_flatten.mpr ⟨U, hU, hx⟩)
    · have hpresL' : ∀ x ∈ L'.flatten,
          x.id ∈ (applyStack sign hints T).map Hint.id := by
        intro x hx
        rw [applyStack_id_map]
        exact hpres x (by
          rw [List.flatten_cons]
          exact List.mem_append_right T hx)
      have hih := ih (applyStack sign hints T) S hSL' hndL' hpresL' j hj
      rw [hih]
      refine applyStack_congr sign _ _ S ?_ ?_ ?_ ?_ j hj
      · intro x hx
        refine applyStack_not_mem sign hints T x.id ?_
        intro hxT
        exact hdisj hxT (List.mem_map_of_mem HintElem.id
          (List.mem_flatten.mpr ⟨S, hSL', hx⟩))
      · exact hndL'.sublist ((List.sublist_join hSL').map HintElem.id)
      · intro x hx
        rw [applyStack_id_map]
        exact hpres x (by
          rw [List.flatten_cons]
          exact List.mem_append_right T (List.mem_flatten.mpr ⟨S, hSL', hx⟩))
      · intro x hx
        exact hpres x (by
          rw [List.flatten_cons]
          exact List.mem_append_right T (List.mem_flatten.mpr ⟨S, hSL', hx⟩))

theorem sortedStack_map_sorted (hs : List Hint) (S : List HintElem) :
    ((sortedStack hs 1 S).map (fun e => zOfId hs e.id)).Sorted (· ≤ ·) := by
  haveI : IsTotal HintElem (stackRel hs 1) := ⟨fun a b => by
    rw [stackRel_one, stackRel_one]
    exact le_total _ _⟩
  haveI : IsTrans HintElem (stackRel hs 1) := ⟨fun a b c hab hbc => by
    rw [stackRel_one] at hab hbc ⊢
    omega⟩
  have hsorted := List.sorted_insertionSort (stackRel hs 1) S
  refine (List.pairwise_map).mpr ?_
  exact List.Pairwise.imp (fun h => (stackRel_one hs _ _).mp h) hsorted

theorem rotate_length_mul {α : Type} (l : List α) :
    ∀ n : ℕ, l.rotate (l.length * n) = l := by
  intro n
  induction n with
  | zero => simpa using l.rotate_zero
  | succ n ih =>
    have h : l.length * (n+1) = l.length * n + l.length := by ring
    rw [h, ← List.rotate_rotate, ih, List.rotate_length]

/-- If the new z-indexes along the old ascending order are the old ones
rotated by one, the new ascending order is the old one rotated by
length - 1. -/
theorem sortedStack_evolution (hs hsn : List Hint) (S : List HintElem)
    (hkeys : (sortedStack hs 1 S).map (fun e => zOfId hsn e.id)
      = ((sortedStack hs 1 S).map (fun e => zOfId hs e.id)).rotate 1)
    (hnd : ((sortedStack hs 1 S).map (fun e => zOfId hs e.id)).Nodup) :
    sortedStack hsn 1 S = (sortedStack hs 1 S).rotate (S.length - 1) := by
  haveI : IsAntisymm HintElem
      (fun a b => zOfId hsn a.id < zOfId hsn b.id) :=
    ⟨fun a b h1 h2 => absurd (lt_trans h1 h2) (lt_irrefl _)⟩
  have hslen : (sortedStack hs 1 S).length = S.length :=
    sortedStack_length hs 1 S
  have hc : ((sortedStack hs 1 S).rotate (S.length - 1)).map
      (fun e => zOfId hsn e.id)
      = (sortedStack hs 1 S).map (fun e => zOfId hs e.id) := by
    rw [List.map_rotate, hkeys, List.rotate_rotate]
    rcases Nat.eq_zero_or_pos S.length with h0 | h0
    · have : S = [] := List.eq_nil_of_length_eq_zero h0
      subst this
      simp [sortedStack, List.insertionSort]
    · have h1 : 1 + (S.length - 1) = S.length := by omega
      rw [h1]
      have h2 : S.length
          = ((sortedStack hs 1 S).map (fun e => zOfId hs e.id)).length := by
        rw [List.length_map, hslen]
      rw [h2, List.rotate_length]
  have hsortc : ((sortedStack hs 1 S).rotate (S.length - 1)).Pairwise
      (fun a b => zOfId hsn a.id < zOfId hsn b.id) := by
    refine (List.pairwise_map).mp ?_
    rw [hc]
    exact List.Sorted.lt_of_le (sortedStack_map_sorted hs S) hnd
  have hsortn : (sortedStack hsn 1 S).Pairwise
      (fun a b => zOfId hsn a.id < zOfId hsn b.id) := by
    have hnd' : ((sortedStack hsn 1 S).map
        (fun e => zOfId hsn e.id)).Nodup := by
      have hperm : ((sortedStack hsn 1 S).map
          (fun e => zOfId hsn e.id)).Perm
          (((sortedStack hs 1 S).rotate (S.length - 1)).map
            (fun e => zOfId hsn e.id)) := by
        refine List.Perm.map _ ?_
        refine List.Perm.trans (List.perm_insertionSort _ S) ?_
        refine List.Perm.trans ?_ (List.rotate_perm _ _).symm
        exact (List.perm_insertionSort _ S).symm
      rw [hc] at hperm
      exact hperm.nodup_iff.mpr hnd
    refine (List.pairwise_map).mp ?_
    exact List.Sorted.lt_of_le (sortedStack_map_sorted hsn S) hnd'
    
  have hperm : (sortedStack hsn 1 S).Perm
      ((sortedStack hs 1 S).rotate (S.length - 1)) := by
    refine List.Perm.trans (List.perm_insertionSort _ S) ?_
    refine List.Perm.trans ?_ (List.rotate_perm _ _).symm
    exact (List.perm_insertionSort _ S).symm
  exact List.eq_of_perm_of_sorted hperm hsortn hsortc

theorem rotateHints_hints_eq (vp : Viewport) (forward : Bool) (s : RState) :
    (rotateHints vp forward s).hints
      = (getStacks s.rects (s.hints.map (Hint.toElem vp))).foldl
          (applyStack 1) s.hints := by
  cases forward <;> rfl

theorem toElem_setZ (vp : Viewport) (hints : List Hint) (i : ℕ) (z : ℤ) :
    (setZ hints i z).map (Hint.toElem vp) = hints.map (Hint.toElem vp) := by
  simp only [setZ, List.map_map]
  refine List.map_congr_left ?_
  intro h _
  by_cases hh : h.id = i
  · simp only [Function.comp_apply, if_pos hh]
    rfl
  · simp only [Function.comp_apply, if_neg hh]

theorem toElem_foldl_setZ (vp : Viewport) (pairs : List (HintElem × ℤ)) :
    ∀ (hints : List Hint),
      ((pairs.foldl (fun acc p => setZ acc p.1.id p.2) hints).map
        (Hint.toElem vp)) = hints.map (Hint.toElem vp) := by
  induction pairs with
  | nil => intro hints; rfl
  | cons q rest ih =>
    intro hints
    rw [List.foldl_cons, ih, toElem_setZ]

theorem toElem_applyStack (vp : Viewport) (sign : ℤ) (hints : List Hint)
    (S : List HintElem) :
    (applyStack sign hints S).map (Hint.toElem vp)
      = hints.map (Hint.toElem vp) := by
  rw [applyStack_eq]
  split
  · rw [toElem_foldl_setZ]
  · rfl

theorem toElem_foldl_applyStack (vp : Viewport) (sign : ℤ) :
    ∀ (L : List (List HintElem)) (hints : List Hint),
      ((L.foldl (applyStack sign) hints).map (Hint.toElem vp))
        = hints.map (Hint.toElem vp) := by
  intro L
  induction L with
  | nil => intro hints; rfl
  | cons T L' ih =>
    intro hints
    rw [List.foldl_cons, ih, toElem_applyStack]

theorem iterate_foldl_id_map (L : List (List HintElem)) (hs0 : List Hint) :
    ∀ m : ℕ,
      (((fun hs => L.foldl (applyStack 1) hs)^[m] hs0).map Hint.id)
        = hs0.map Hint.id := by
  intro m
  induction m with
  | zero => rfl
  | succ m ih =>
    rw [Function.iterate_succ_apply']
    show ((L.foldl (applyStack 1) _).map Hint.id) = hs0.map Hint.id
    rw [foldl_applyStack_id_map, ih]

/-- Iterating rotateHints only rewrites z-indexes through the one pass
per call: rects and the overlap-resolver view of the hints stay fixed. -/
theorem rotateHints_iterate_shape (vp : Viewport) (forward : Bool)
    (s : RState) :
    ∀ m : ℕ,
      ((rotateHints vp forward)^[m] s).hints
        = (fun hs => (getStacks s.rects
            (s.hints.map (Hint.toElem vp))).foldl (applyStack 1) hs)^[m]
              s.hints
      ∧ ((rotateHints vp forward)^[m] s).rects = s.rects
      ∧ ((rotateHints vp forward)^[m] s).hints.map (Hint.toElem vp)
          = s.hints.map (Hint.toElem vp) := by
  intro m
  induction m with
  | zero => exact ⟨rfl, rfl, rfl⟩
  | succ m ih =>
    obtain ⟨ih1, ih2, ih3⟩ := ih
    rw [Function.iterate_succ_apply']
    have h1 : (rotateHints vp forward
          ((rotateHints vp forward)^[m] s)).hints
        = (fun hs => (getStacks s.rects
            (s.hints.map (Hint.toElem vp))).foldl (applyStack 1) hs)^[m+1]
              s.hints := by
      rw [rotateHints_hints_eq, ih2, ih3, ih1,
        Function.iterate_succ_apply']
    refine ⟨h1, ?_, ?_⟩
    · rw [(rotateHints_frame vp forward _).2.2, ih2]
    · rw [h1, Function.iterate_succ_apply']
      show ((getStacks s.rects (s.hints.map (Hint.toElem vp))).foldl
        (applyStack 1) _).map (Hint.toElem vp) = _
      rw [toElem_foldl_applyStack, ← ih1, ih3]

/-- Master invariant of iterated rotation passes: after m passes the
ascending order of a stack is the original ascending order rotated by
m * (k - 1) positions, and the z-indexes read along the current ascending
order are the original ascending z-index list. -/
theorem rotate_master (rects : RectCache) (elems : List HintElem)
    (hs0 : List Hint) (S : List HintElem)
    (hflat : (((getStacks rects elems).flatten).map HintElem.id).Nodup)
    (hpres0 : ∀ x ∈ (getStacks rects elems).flatten,
      x.id ∈ hs0.map Hint.id)
    (hS : S ∈ getStacks rects elems)
    (hk : 2 ≤ S.length)
    (hSid : (S.map HintElem.id).Nodup)
    (hznd : ((sortedStack hs0 1 S).map
      (fun e => zOfId hs0 e.id)).Nodup) :
    ∀ m : ℕ,
      sortedStack ((fun hs => (getStacks rects elems).foldl
          (applyStack 1) hs)^[m] hs0) 1 S
        = (sortedStack hs0 1 S).rotate (m * (S.length - 1))
      ∧ (sortedStack ((fun hs => (getStacks rects elems).foldl
            (applyStack 1) hs)^[m] hs0) 1 S).map
          (fun e => zOfId ((fun hs => (getStacks rects elems).foldl
            (applyStack 1) hs)^[m] hs0) e.id)
        = (sortedStack hs0 1 S).map (fun e => zOfId hs0 e.id) := by
  intro m
  induction m with
  | zero =>
    refine ⟨?_, rfl⟩
    rw [Nat.zero_mul, List.rotate_zero]
    rfl
  | succ m ih =>
    obtain ⟨ih1, ih2⟩ := ih
    have hidm : (((fun hs => (getStacks rects elems).foldl
        (applyStack 1) hs)^[m] hs0).map Hint.id) = hs0.map Hint.id :=
      iterate_foldl_id_map (getStacks rects elems) hs0 m
    set hsm := (fun hs => (getStacks rects elems).foldl
      (applyStack 1) hs)^[m] hs0 with hhsm
    have hSpresm : ∀ x ∈ S, x.id ∈ hsm.map Hint.id := by
      intro x hx
      rw [hidm]
      exact hpres0 x ((List.sublist_join hS).subset hx)
    have hpresm : ∀ x ∈ (getStacks rects elems).flatten,
        x.id ∈ hsm.map Hint.id := by
      intro x hx
      rw [hidm]
      exact hpres0 x hx
    have hkeyagree : ∀ x ∈ S,
        zOfId ((getStacks rects elems).foldl (applyStack 1) hsm) x.id
          = zOfId (applyStack 1 hsm S) x.id := by
      intro x hx
      exact foldl_applyStack_stack 1 (getStacks rects elems) hsm S hS
        hflat hpresm x.id (List.mem_map_of_mem HintElem.id hx)
    have hassign := applyStack_assign 1 hsm S hk hSid hSpresm
    have hkeysn : (sortedStack hsm 1 S).map
        (fun e => zOfId ((getStacks rects elems).foldl
          (applyStack 1) hsm) e.id)
        = ((sortedStack hsm 1 S).map (fun e => zOfId hsm e.id)).rotate
            1 := by
      rw [← hassign]
      refine List.map_congr_left ?_
      intro a ha
      exact hkeyagree a ((mem_sortedStack hsm 1 S a).mp ha)
    have hndm : ((sortedStack hsm 1 S).map
        (fun e => zOfId hsm e.id)).Nodup := by
      rw [ih2]
      exact hznd
    have hevo := sortedStack_evolution hsm
      ((getStacks rects elems).foldl (applyStack 1) hsm) S hkeysn hndm
    have hstep : (fun hs => (getStacks rects elems).foldl
        (applyStack 1) hs)^[m+1] hs0
        = (getStacks rects elems).foldl (applyStack 1) hsm := by
      rw [Function.iterate_succ_apply', ← hhsm]
    constructor
    · rw [hstep, hevo, ih1, List.rotate_rotate, ← Nat.succ_mul]
    · rw [hstep, hevo, List.map_rotate, hkeysn, ih2, List.rotate_rotate]
      have h1k : 1 + (S.length - 1) = S.length := by omega
      rw [h1k]
      have hlz : ((sortedStack hs0 1 S).map
          (fun e => zOfId hs0 e.id)).length = S.length := by
        rw [List.length_map, sortedStack_length]
      rw [← hlz, List.rotate_length]

/-- C3: for every overlap cluster S of size k ≥ 2 found by getStacks
(transitively-connected cached-or-live rectangle intersections, inclusive
edges), under unique hint ids and unique z-indexes, rotateHints acts as a
k-cycle on the cluster's stacking indices: k applications restore every
member's original z-index, and one application gives the minimum-index
node (the head of the ascending sort) the index previously held by the
next-lowest node. -/
theorem rotateHints_stack_cycle
    (vp : Viewport) (forward : Bool) (s : RState) (S : List HintElem)
    (hids : (s.hints.map Hint.id).Nodup)
    (hz : (s.hints.map Hint.z).Nodup)
    (hS : S ∈ getStacks s.rects (s.hints.map (Hint.toElem vp)))
    (hk : 2 ≤ S.length) :
    (∀ x ∈ S,
      zOfId (((rotateHints vp forward)^[S.length]) s).hints x.id
        = zOfId s.hints x.id)
    ∧ (∀ (h0 : 0 < (sortedStack s.hints 1 S).length)
        (h1 : 1 < (sortedStack s.hints 1 S).length),
      (∀ x ∈ S,
        zOfId s.hints ((sortedStack s.hints 1 S).get ⟨0, h0⟩).id
          ≤ zOfId s.hints x.id)
      ∧ zOfId (rotateHints vp forward s).hints
            ((sortedStack s.hints 1 S).get ⟨0, h0⟩).id
          = zOfId s.hints
              ((sortedStack s.hints 1 S).get ⟨1, h1⟩).id) := by
  have hidelems : (s.hints.map (Hint.toElem vp)).map HintElem.id
      = s.hints.map Hint.id := by
    rw [List.map_map]
    rfl
  have hflatperm := getStacks_flatten_perm s.rects
    (s.hints.map (Hint.toElem vp))
  have hflat : (((getStacks s.rects
      (s.hints.map (Hint.toElem vp))).flatten).map HintElem.id).Nodup := by
    refine ((hflatperm.map HintElem.id).nodup_iff).mpr ?_
    rw [hidelems]
    exact hids
  have hpres0 : ∀ x ∈ (getStacks s.rects
      (s.hints.map (Hint.toElem vp))).flatten,
      x.id ∈ s.hints.map Hint.id := by
    intro x hx
    rw [← hidelems]
    exact List.mem_map_of_mem HintElem.id (hflatperm.subset hx)
  have hSid : (S.map HintElem.id).Nodup :=
    hflat.sublist ((List.sublist_join hS).map HintElem.id)
  have hSpres : ∀ x ∈ S, x.id ∈ s.hints.map Hint.id := fun x hx =>
    hpres0 x ((List.sublist_join hS).subset hx)
  have hkeyndS : (S.map (fun e => zOfId s.hints e.id)).Nodup := by
    have hcomp : S.map (fun e => zOfId s.hints e.id)
        = (S.map HintElem.id).map (zOfId s.hints) := by
      rw [List.map_map]
      rfl
    rw [hcomp]
    refine List.Nodup.map_on ?_ hSid
    intro i hi j hj hzeq
    by_contra hne
    have hip : i ∈ s.hints.map Hint.id := by
      obtain ⟨x, hx, hxi⟩ := List.mem_map.mp hi
      exact hxi ▸ hSpres x hx
    have hjp : j ∈ s.hints.map Hint.id := by
      obtain ⟨x, hx, hxj⟩ := List.mem_map.mp hj
      exact hxj ▸ hSpres x hx
    exact absurd hzeq (zOfId_inj s.hints hz i j hip hjp hne)
  have hznd : ((sortedStack s.hints 1 S).map
      (fun e => zOfId s.hints e.id)).Nodup :=
    (((List.perm_insertionSort (stackRel s.hints 1) S).map
      (fun e => zOfId s.hints e.id)).nodup_iff).mpr hkeyndS
  have master := rotate_master s.rects (s.hints.map (Hint.toElem vp))
    s.hints S hflat hpres0 hS hk hSid hznd
  constructor
  · intro x hx
    have hshape := rotateHints_iterate_shape vp forward s S.length
    rw [hshape.1]
    obtain ⟨hm1, hm2⟩ := master S.length
    have hs0len : (sortedStack s.hints 1 S).length = S.length :=
      sortedStack_length s.hints 1 S
    have hrot : (sortedStack s.hints 1 S).rotate
        (S.length * (S.length - 1)) = sortedStack s.hints 1 S := by
      rw [← hs0len]
      exact rotate_length_mul _ _
    rw [hrot] at hm1
    rw [hm1] at hm2
    have hpt := List.map_inj_left.mp hm2
    exact hpt x ((mem_sortedStack s.hints 1 S x).mpr hx)
  · intro h0 h1
    constructor
    · intro x hx
      haveI : IsTotal HintElem (stackRel s.hints 1) := ⟨fun a b => by
        rw [stackRel_one, stackRel_one]
        exact le_total _ _⟩
      haveI : IsTrans HintElem (stackRel s.hints 1) := ⟨fun a b c hab hbc => by
        rw [stackRel_one] at hab hbc ⊢
        omega⟩
      have hpw : (sortedStack s.hints 1 S).Pairwise (stackRel s.hints 1) :=
        List.sorted_insertionSort (stackRel s.hints 1) S
      have hxmem : x ∈ sortedStack s.hints 1 S :=
        (mem_sortedStack s.hints 1 S x).mpr hx
      obtain ⟨n, hn, hget⟩ := List.getElem_of_mem hxmem
      rcases Nat.eq_zero_or_pos n with hn0 | hnpos
      · subst hn0
        have : (sortedStack s.hints 1 S).get ⟨0, h0⟩ = x := hget
        rw [this]
      · have hrel := (List.pairwise_iff_getElem.mp hpw) 0 n h0 hn hnpos
        rw [stackRel_one] at hrel
        rw [← hget]
        exact hrel
    · rw [rotateHints_hints_eq]
      have hhead : (sortedStack s.hints 1 S).get ⟨0, h0⟩ ∈ S :=
        (mem_sortedStack s.hints 1 S _).mp (List.get_mem _ _ h0)
      have hfold := foldl_applyStack_stack 1
        (getStacks s.rects (s.hints.map (Hint.toElem vp))) s.hints S hS
        hflat hpres0 ((sortedStack s.hints 1 S).get ⟨0, h0⟩).id
        (List.mem_map_of_mem HintElem.id hhead)
      rw [hfold]
      have hassign := applyStack_assign 1 s.hints S hk hSid hSpres
      have e1 := congrArg (fun l => l[0]?) hassign
      simp only [List.getElem?_map] at e1
      have hx0 : (sortedStack s.hints 1 S)[0]?
          = some ((sortedStack s.hints 1 S).get ⟨0, h0⟩) := by
        rw [List.getElem?_eq_getElem h0]
        rfl
      rw [hx0] at e1
      simp only [Option.map_some'] at e1
      have hlenz : ((sortedStack s.hints 1 S).map
          (fun e => zOfId s.hints e.id)).length = S.length := by
        rw [List.length_map, sortedStack_length]
      have hrlen : 0 < (((sortedStack s.hints 1 S).map
          (fun e => zOfId s.hints e.id)).rotate 1).length := by
        rw [List.length_rotate, hlenz]
        omega
      rw [List.getElem?_eq_getElem hrlen] at e1
      have e3 := Option.some.inj e1
      rw [e3, List.getElem_rotate]
      have hmod : (0 + 1) % ((sortedStack s.hints 1 S).map
          (fun e => zOfId s.hints e.id)).length = 1 := by
        rw [hlenz]
        exact Nat.mod_eq_of_lt (by omega)
      simp only [hmod]
      rw [List.getElem_map]
      rfl

/-- A hint pair whose cached rectangles overlap, for exercising the
rotation cycle. -/
def cycleHintA : Hint :=
  { id := 0, label := "a", posLeft := some 5, posRight := none,
    posTop := 10, z := 10, hiddenClass := false, highlightedClass := false,
    matchedChars := "", restChars := "a", marginRight := none,
    marginTop := none, width := 10, height := 10 }

def cycleHintB : Hint :=
  { id := 1, label := "b", posLeft := some 7, posRight := none,
    posTop := 12, z := 20, hiddenClass := false, highlightedClass := false,
    matchedChars := "", restChars := "b", marginRight := none,
    marginTop := none, width := 10, height := 10 }

def cycleVp : Viewport := ⟨100, 100⟩

/-- Two rendered hints whose cached rectangles intersect. -/
def cycleState : RState :=
  { initState with
    hints := [cycleHintA, cycleHintB],
    rects := [(0, ⟨5, 5, 15, 15⟩), (1, ⟨7, 7, 17, 17⟩)] }

/-- The single overlap stack getStacks finds on cycleState. -/
def cycleStack : List HintElem :=
  [Hint.toElem cycleVp cycleHintB, Hint.toElem cycleVp cycleHintA]

/-- Witness: on a two-hint state with overlapping cached rectangles, the
stack is a genuine cluster of size 2 with distinct ids and z-indexes, and
two applications of rotateHints restore hint 1's original z-index. -/
theorem rotateHints_stack_cycle_witness :
    (cycleState.hints.map Hint.id).Nodup
    ∧ (cycleState.hints.map Hint.z).Nodup
    ∧ cycleStack ∈ getStacks cycleState.rects
        (cycleState.hints.map (Hint.toElem cycleVp))
    ∧ 2 ≤ cycleStack.length
    ∧ zOfId (((rotateHints cycleVp true)^[cycleStack.length])
          cycleState).hints (Hint.toElem cycleVp cycleHintB).id
        = zOfId cycleState.hints (Hint.toElem cycleVp cycleHintB).id := by
  have hmem : cycleStack ∈ getStacks cycleState.rects
      (cycleState.hints.map (Hint.toElem cycleVp)) := by
    rw [show getStacks cycleState.rects
        (cycleState.hints.map (Hint.toElem cycleVp)) = [cycleStack]
      from rfl]
    exact List.mem_singleton.mpr rfl
  refine ⟨by decide, by decide, hmem, by decide, ?_⟩
  exact (rotateHints_stack_cycle cycleVp true cycleState cycleStack
    (by decide) (by decide) hmem (by decide)).1
    (Hint.toElem cycleVp cycleHintB) (List.mem_cons_self _ _)

end Renderer
